import Mathlib

/-!
Shallow embedding of `lazytable` (src/lazytable/__init__.py), a schema-flexible
record store over sqlite, together with proofs about its specified behaviour.

Modelling conventions:
* A `Value` is the closed scalar variant the store exchanges with callers:
  integers, floats, strings, blobs and null.  Float and blob payloads are
  carried as opaque strings: only their type tag and equality matter here.
* A `Record` is a Python dict rendered as an association list in insertion
  order (Python dicts preserve insertion order; keys are unique in a dict,
  which theorems assume through `Nodup` hypotheses where it matters).
* The sqlite table is a list of columns (name as created, declared storage
  type) plus a list of rows; every row is positional, one `Value` per column.
  The `rowid INTEGER PRIMARY KEY ASC` column created by `__init__` is an
  ordinary first column here, auto-assigned `max existing rowid + 1` on
  insert when the record does not set it explicitly.
* The handle's cached column set `self.columns` is the `snapshot` field,
  a list of lower-cased names as produced by `get_columns`.
* sqlite resolves column names case-insensitively (ASCII); Python's
  `str.lower` is modelled by the ASCII `pyLower` (non-ASCII case folding is
  out of scope, as is sqlite's numeric affinity between INTEGER and REAL).
* A statement that sqlite rejects (syntax error, unknown column, duplicate
  column, rowid conflict) is modelled as the operation returning `false`
  with its effects so far: in the source each ALTER/INSERT commits
  independently, so everything already executed stays.
* Commits do not change single-connection-visible state; `insert_list`
  returns the list of commit events (number of records inserted at each
  commit) so the batching contract can be stated.
* Python iterates `set(...)` in unspecified order inside `expand`; the model
  fixes record order.  No claim below depends on the order chosen.
-/

namespace LazyTable

/-- Storage kinds inferred by `expand` (INTEGER/REAL/TEXT/BLOB). -/
inductive SqlType
  | INTEGER
  | REAL
  | TEXT
  | BLOB
deriving DecidableEq, Repr

/-- Scalar values exchanged with the store: the closed variant
{Integer, Real, Text, Blob, Null}.  Real and Blob payloads are opaque. -/
inductive Value
  | VNull
  | VInt (n : Int)
  | VReal (x : String)
  | VText (s : String)
  | VBlob (b : String)
deriving DecidableEq, Repr

/-- A record: field name to scalar value, in dict insertion order. -/
abbrev Record := List (String × Value)

/-- A column: name as created (original case) and declared storage type. -/
abbrev Col := String × SqlType

/-- ASCII lower-casing of one character, as `str.lower` does for ASCII. -/
def lowerChar (c : Char) : Char :=
  if 65 ≤ c.toNat ∧ c.toNat ≤ 90 then Char.ofNat (c.toNat + 32) else c

/-- ASCII `str.lower`, used by `get_columns` and the case checks. -/
def pyLower (s : String) : String := String.mk (s.data.map lowerChar)

/-- Character-wise body of `id.replace('"', '""')`. -/
def escapeChars : List Char → List Char
  | [] => []
  | c :: rest => if c = '"' then '"' :: '"' :: escapeChars rest else c :: escapeChars rest

/-- Source `escape_identifier`: wrap in double quotes, double every
embedded double quote. -/
def escape_identifier (id : String) : String :=
  String.mk ('"' :: (escapeChars id.data ++ ['"']))

/-- Lexicographic comparison of char lists by code point, as Python
compares strings. -/
def charsLe : List Char → List Char → Bool
  | [], _ => true
  | _ :: _, [] => false
  | a :: as, b :: bs =>
    if a.toNat < b.toNat then true
    else if b.toNat < a.toNat then false
    else charsLe as bs

/-- Python string `<=` (code-point lexicographic). -/
def strLe (a b : String) : Bool := charsLe a.data b.data

/-- Python `sorted` on a list of strings. -/
def sortStrings (l : List String) : List String :=
  List.insertionSort (fun a b => strLe a b = true) l

/-- Python dict lookup `sel[k]` on an association list (first binding wins;
in a real dict keys are unique). -/
def lookupVal (r : Record) (k : String) : Option Value :=
  (r.find? (fun kv => decide (kv.1 = k))).map Prod.snd

/-- Loop body of `_mk_ands`: web of clauses and bound values for the given
already-sorted key list. -/
def mkAndsLoop : List String → Record → List String × List Value
  | [], _ => ([], [])
  | n :: rest, sel =>
    let res := mkAndsLoop rest sel
    match lookupVal sel n with
    | some Value.VNull => ((escape_identifier n ++ " = NULL ") :: res.1, res.2)
    | some v => ((escape_identifier n ++ " = ? ") :: res.1, v :: res.2)
    | none => res

/-- Source `_mk_ands`: iterate `sorted(selection)`; a None value emits the
literal clause `"n" = NULL ` and binds nothing, otherwise emit `"n" = ? `
and bind the value; join with ` AND `. -/
def mk_ands (sel : Record) : String × List Value :=
  let res := mkAndsLoop (sortStrings (sel.map Prod.fst)) sel
  (String.intercalate " AND " res.1, res.2)

/-- The table state: sqlite columns and rows, plus the handle's cached
lower-cased column-name snapshot (`self.columns`). -/
structure St where
  cols : List Col
  rows : List (List Value)
  snapshot : List String
deriving DecidableEq, Repr

/-- `get_columns` applied to a column list: lower-cased names. -/
def colsLower (cols : List Col) : List String := cols.map (fun c => pyLower c.1)

/-- State right after `__init__` / `open`: the lazily created table has the
single column `rowid INTEGER PRIMARY KEY ASC`, no rows, and the snapshot
is read back from `get_columns`. -/
def newTable : St :=
  { cols := [("rowid", SqlType.INTEGER)], rows := [], snapshot := ["rowid"] }

/-- Index of the first column matching a name, case-insensitively, the way
sqlite resolves identifiers in statements. -/
def colIndexCI : List Col → String → Option Nat
  | [], _ => none
  | c :: rest, k =>
    if pyLower c.1 = pyLower k then some 0 else (colIndexCI rest k).map (· + 1)

/-- Value stored in a row under a column name (NULL when the column does
not exist; callers only use this when it does). -/
def rowVal (cols : List Col) (row : List Value) (k : String) : Value :=
  match colIndexCI cols k with
  | some i => row.getD i Value.VNull
  | none => Value.VNull

/-- sqlite evaluation of one clause produced by `_mk_ands` against a row:
`"k" = NULL` never matches (three-valued logic), `"k" = ?` matches when the
stored value equals the bound one (a stored NULL matches nothing). -/
def fieldMatches (cols : List Col) (row : List Value) (kv : String × Value) : Bool :=
  if kv.2 = Value.VNull then false
  else decide (rowVal cols row kv.1 = kv.2)

/-- sqlite evaluation of the full WHERE conjunction from `_mk_ands`
(an empty matching map has no WHERE clause and matches every row). -/
def rowMatches (cols : List Col) (row : List Value) (m : Record) : Bool :=
  m.all (fieldMatches cols row)

/-- The integer rowid of a row (rows written by this model always hold a
`VInt` there). -/
def rowidVal (cols : List Col) (row : List Value) : Int :=
  match rowVal cols row "rowid" with
  | Value.VInt n => n
  | _ => 0

/-- Largest rowid currently in the table (0 when empty); sqlite assigns
`max + 1` to the next auto rowid. -/
def maxRowid (st : St) : Int :=
  st.rows.foldl (fun acc row => max acc (rowidVal st.cols row)) 0

/-- `ORDER BY rowid` over the stored rows. -/
def sortRows (st : St) : List (List Value) :=
  List.insertionSort (fun a b => rowidVal st.cols a ≤ rowidVal st.cols b) st.rows

/-- `_fetchone_record`'s dict for one row: zip the cursor's column names
(original case, `SELECT *` order) with the positional values; NULL values
are included as explicit entries. -/
def rowToRecord (cols : List Col) (row : List Value) : Record :=
  (cols.map Prod.fst).zip row

/-- Source `get`: `None` when the matching keys are not a subset of the
cached column snapshot, otherwise the decoded rows matching the predicate,
ordered by rowid. -/
def get (st : St) (m : Record) : Option (List Record) :=
  if ∀ kv ∈ m, kv.1 ∈ st.snapshot then
    some (((sortRows st).filter (fun row => rowMatches st.cols row m)).map (rowToRecord st.cols))
  else none

/-- Source `get_one`: first record of `get`, or `None` — both the empty
result and `get`'s column-guard `None` collapse to `None`. -/
def get_one (st : St) (m : Record) : Option Record :=
  match get st m with
  | none => none
  | some l => l.head?

/-- Storage kind inferred by `expand` from the runtime type of a value:
int → INTEGER, float → REAL, str → TEXT, anything else → BLOB. -/
def inferType (v : Value) : SqlType :=
  match v with
  | Value.VInt _ => SqlType.INTEGER
  | Value.VReal _ => SqlType.REAL
  | Value.VText _ => SqlType.TEXT
  | _ => SqlType.BLOB

/-- One `ALTER TABLE .. ADD COLUMN .. default NULL`: sqlite rejects a name
that collides case-insensitively with an existing column; otherwise the
column is appended and existing rows take its NULL default. -/
def addColumn (st : St) (name : String) (ty : SqlType) : St × Bool :=
  if pyLower name ∈ colsLower st.cols then (st, false)
  else
    ({ st with
        cols := st.cols ++ [(name, ty)],
        rows := st.rows.map (fun row => row ++ [Value.VNull]) }, true)

/-- Loop of `expand` over the missing fields: skip a field whose lower-cased
name is already in the (stale, unrefreshed) snapshot, skip None values,
otherwise add a column of the inferred type; a rejected ALTER aborts the
loop with the columns added so far kept (each committed independently) and
without refreshing the snapshot.  On completion the snapshot is re-read
from `get_columns`. -/
def expandLoop : St → List (String × Value) → St × Bool
  | st, [] => ({ st with snapshot := colsLower st.cols }, true)
  | st, kv :: rest =>
    if pyLower kv.1 ∈ st.snapshot then expandLoop st rest
    else if kv.2 = Value.VNull then expandLoop st rest
    else
      let res := addColumn st kv.1 (inferType kv.2)
      if res.2 then expandLoop res.1 rest else (res.1, false)

/-- Source `expand`: iterate `set(record.keys()).difference(self.columns)`
(modelled in record order) and add the missing columns. -/
def expand (st : St) (r : Record) : St × Bool :=
  expandLoop st (r.filter (fun kv => decide (kv.1 ∉ st.snapshot)))

/-- The `if self.columns != set(map(str.lower, record.keys())): self.expand`
guard shared by `_insert_record` and `update` (set comparison of the
snapshot with the lower-cased key set). -/
def expandIfNeeded (st : St) (r : Record) : St × Bool :=
  let lk := (r.map Prod.fst).map pyLower
  if (∀ x ∈ st.snapshot, x ∈ lk) ∧ (∀ x ∈ lk, x ∈ st.snapshot) then (st, true)
  else expand st r

/-- The row the INSERT writes: every table column gets the record's value
for it (non-None fields only; sqlite resolves the escaped names
case-insensitively), the rowid column gets `rid`, and every other column
falls back to its NULL default. -/
def mkRow (cols : List Col) (nn : Record) (rid : Int) : List Value :=
  cols.map (fun c =>
    if pyLower c.1 = "rowid" then Value.VInt rid
    else
      match nn.find? (fun kv => decide (pyLower kv.1 = pyLower c.1)) with
      | some kv => kv.2
      | none => Value.VNull)

/-- Source `_insert_record`: run the expand guard, drop None-valued fields,
then execute `INSERT INTO t (cols...) VALUES (?...)`.  An empty column list
is a sqlite syntax error; a field naming the rowid column must carry a
fresh integer (PRIMARY KEY), otherwise the engine errors; without one the
engine assigns `max rowid + 1`. -/
def insert_record (st : St) (r : Record) : St × Bool :=
  let res := expandIfNeeded st r
  if res.2 then
    let st1 := res.1
    let nn := r.filter (fun kv => decide (kv.2 ≠ Value.VNull))
    if nn = [] then (st1, false)
    else
      match nn.find? (fun kv => decide (pyLower kv.1 = "rowid")) with
      | some kv =>
        match kv.2 with
        | Value.VInt n =>
          if ∃ row ∈ st1.rows, rowidVal st1.cols row = n then (st1, false)
          else ({ st1 with rows := st1.rows ++ [mkRow st1.cols nn n] }, true)
        | _ => (st1, false)
      | none =>
        ({ st1 with rows := st1.rows ++ [mkRow st1.cols nn (maxRowid st1 + 1)] }, true)
  else (res.1, false)

/-- Result of `insert_list`: final state, success flag, and the commit
events (each labelled with how many records had been inserted when it
fired).  A failing insert propagates the exception: no further records and
no final commit. -/
structure Bulk where
  st : St
  ok : Bool
  commits : List Nat
deriving DecidableEq, Repr

/-- Loop of `insert_list`: insert each record without committing, commit
after every 500th record. -/
def insertLoop : St → List Record → Nat → St × (Bool × List Nat)
  | st, [], _ => (st, (true, []))
  | st, r :: rest, i =>
    let res := insert_record st r
    if res.2 then
      let tail := insertLoop res.1 rest (i + 1)
      (tail.1, (tail.2.1, (if (i + 1) % 500 = 0 then [i + 1] else []) ++ tail.2.2))
    else (res.1, (false, []))

/-- Source `insert_list`: run the loop, then always commit once more after
the last record — unless an insert raised, in which case the final commit
is never reached. -/
def insert_list (st : St) (records : List Record) : Bulk :=
  let res := insertLoop st records 0
  if res.2.1 then { st := res.1, ok := true, commits := res.2.2 ++ [records.length] }
  else { st := res.1, ok := false, commits := res.2.2 }

/-- Source `insert`: `insert_list([record])`. -/
def insert (st : St) (r : Record) : St × Bool :=
  let b := insert_list st [r]
  (b.st, b.ok)

/-- The SET-clause assignment of `update` applied to one row: None-valued
fields are written as literal NULL, the rest as bound values. -/
def applySet (cols : List Col) (row : List Value) (r : Record) : List Value :=
  r.foldl (fun acc kv =>
    match colIndexCI cols kv.1 with
    | some i => acc.set i kv.2
    | none => acc) row

/-- Source `update`: run the expand guard, then execute
`UPDATE t SET ... WHERE ...` and commit.  An empty record leaves an empty
SET list (sqlite syntax error); a SET or WHERE reference to a column that
does not exist is a sqlite error and changes nothing. -/
def update (st : St) (m : Record) (r : Record) : St × Bool :=
  let res := expandIfNeeded st r
  if res.2 then
    let st1 := res.1
    if r = [] then (st1, false)
    else if ∃ kv ∈ r, colIndexCI st1.cols kv.1 = none then (st1, false)
    else if ∃ kv ∈ m, colIndexCI st1.cols kv.1 = none then (st1, false)
    else
      ({ st1 with
          rows := st1.rows.map (fun row =>
            if rowMatches st1.cols row m then applySet st1.cols row r else row) }, true)
  else (res.1, false)

/-- Source `delete`: no column guard — the WHERE clause from `_mk_ands` is
executed directly, so an unknown column name is a sqlite error (and nothing
is deleted); otherwise all matching rows are removed. -/
def delete (st : St) (m : Record) : St × Bool :=
  if ∃ kv ∈ m, colIndexCI st.cols kv.1 = none then (st, false)
  else ({ st with rows := st.rows.filter (fun row => ! rowMatches st.cols row m) }, true)

/-- Source `upsert`: inside `BEGIN EXCLUSIVE`, fetch the first row matching
`matching`; update when one exists, otherwise insert `record` — exactly
`record`, never a merge with `matching`.  `get`'s column-guard `None` also
takes the insert branch. -/
def upsert (st : St) (m : Record) (r : Record) : St × Bool :=
  match get st m with
  | none => insert st r
  | some l =>
    match l.head? with
    | some _ => update st m r
    | none => insert st r

/-- Well-formedness of a reachable handle state: the snapshot is exactly
`get_columns` of the current columns, lower-cased column names are distinct
(sqlite enforces this), the rowid column exists, and rows are positionally
aligned with the columns. -/
def Inv (st : St) : Prop :=
  st.snapshot = colsLower st.cols ∧ (colsLower st.cols).Nodup ∧
    "rowid" ∈ colsLower st.cols ∧ ∀ row ∈ st.rows, row.length = st.cols.length

instance (st : St) : Decidable (Inv st) := by
  unfold Inv; exact inferInstance

/-- Python dict equality of two records: same keys, same values. -/
def DictEq (a b : Record) : Prop :=
  (∀ kv ∈ a, lookupVal b kv.1 = some kv.2) ∧ ∀ kv ∈ b, lookupVal a kv.1 = some kv.2

instance (a b : Record) : Decidable (DictEq a b) := by
  unfold DictEq; exact inferInstance

/-- Specification artifact: the columns `expand` creates for a record given
the snapshot — one per field whose lower-cased name is not yet known and
whose value is not None, typed by `inferType`. -/
def addedCols (snap : List String) (fields : List (String × Value)) : List Col :=
  (fields.filter (fun kv => decide (pyLower kv.1 ∉ snap) && decide (kv.2 ≠ Value.VNull))).map
    (fun kv => (kv.1, inferType kv.2))

/-- Weak well-formedness that holds in every reachable state, even after a
failed `expand` left the snapshot stale: snapshot entries name real columns
(case-insensitively they are lower-cased images of column names). -/
def SnapGood (st : St) : Prop :=
  (∀ x ∈ st.snapshot, x ∈ colsLower st.cols) ∧ ∀ x ∈ st.snapshot, pyLower x = x

/-- The new state extends the old: the old columns are a prefix, every old
row is still at its position, unchanged on the old columns. -/
def Ext (st st' : St) : Prop :=
  st'.cols.take st.cols.length = st.cols ∧ st.rows.length ≤ st'.rows.length ∧
    ∀ p < st.rows.length, ∀ i < st.cols.length,
      (st'.rows.getD p []).getD i Value.VNull = (st.rows.getD p []).getD i Value.VNull

/-- The row at some position holds the record's data: every non-None field
of the record is stored under its column. -/
def Agrees (cols : List Col) (row : List Value) (r : Record) : Prop :=
  ∀ kv ∈ r, kv.2 ≠ Value.VNull → rowVal cols row kv.1 = kv.2

instance (cols : List Col) (row : List Value) (r : Record) : Decidable (Agrees cols row r) := by
  unfold Agrees; exact inferInstance

/-- A record is retrievable: some row in the table carries its data. -/
def Retr (st : St) (r : Record) : Prop :=
  ∃ p < st.rows.length, Agrees st.cols (st.rows.getD p []) r

/-- A record every dict-shaped caller inserts without an engine error:
lower-cased field names are distinct, at least one field is non-None, and
no field names the reserved rowid column. -/
def validRec (r : Record) : Prop :=
  (r.map (fun kv => pyLower kv.1)).Nodup ∧ (∃ kv ∈ r, kv.2 ≠ Value.VNull) ∧
    ∀ kv ∈ r, pyLower kv.1 ≠ "rowid"

instance (r : Record) : Decidable (validRec r) := by
  unfold validRec; exact inferInstance

/-- Claim-side rendition of the predicate builder, written from the claim's
wording: process the fields in sorted-by-name order; each field emits an
escaped clause — the unbound literal `name = NULL` for a None value,
`name = ?` otherwise; clauses are joined with ` AND `; the bound-value list
collects the non-None values in the same order. -/
def mkAndsClaim (sel : Record) : String × List Value :=
  (String.intercalate " AND "
    ((sortStrings (sel.map Prod.fst)).map (fun n =>
      escape_identifier n ++ (if lookupVal sel n = some Value.VNull then " = NULL " else " = ? "))),
    (sortStrings (sel.map Prod.fst)).filterMap (fun n =>
      match lookupVal sel n with
      | some Value.VNull => none
      | some v => some v
      | none => none))

/-- A mutating operation on the handle: `insert(record)` or
`update(matching, record)`. -/
inductive DbOp
  | ins (r : Record)
  | upd (m r : Record)
deriving DecidableEq, Repr

/-- The record argument of an operation (whose fields the schema must
afterwards cover). -/
def opRecord : DbOp → Record
  | DbOp.ins r => r
  | DbOp.upd _ r => r

/-- Run one operation. -/
def applyOp (st : St) : DbOp → St × Bool
  | DbOp.ins r => insert st r
  | DbOp.upd m r => update st m r

/-- Run a sequence of operations, stopping at the first engine error. -/
def runOps : St → List DbOp → St × Bool
  | st, [] => (st, true)
  | st, op :: rest =>
    let res := applyOp st op
    if res.2 then runOps res.1 rest else (res.1, false)

/-- Specification artifact: the mid-loop commit events of `insert_list`
when `i` records were already counted — a commit fires after every record
whose running count is a multiple of 500. -/
def scheduleFrom : Nat → Nat → List Nat
  | _, 0 => []
  | i, n + 1 => (if (i + 1) % 500 = 0 then [i + 1] else []) ++ scheduleFrom (i + 1) n

/-- A reachable table shaped exactly for the record `{'a': 1}`: columns
rowid and a, no rows (what `open` plus `expand({'a': 1})` produces). -/
def tableA : St :=
  { cols := [("rowid", SqlType.INTEGER), ("a", SqlType.INTEGER)], rows := [],
    snapshot := ["rowid", "a"] }

/-! ### The source's doctests, replayed against the embedding -/

open Value in
example : mk_ands [("a", VInt 1), ("b", VInt 2)] =
    ("\"a\" = ?  AND \"b\" = ? ", [VInt 1, VInt 2]) := by decide

open Value in
example : mk_ands [("a", VNull), ("b", VInt 2)] =
    ("\"a\" = NULL  AND \"b\" = ? ", [VInt 2]) := by decide

example : escape_identifier "a\"b" = "\"a\"\"b\"" := by decide

open Value in
example : get (insert newTable [("a", VInt 42), ("b", VText "foo")]).1 [] =
    some [[("rowid", VInt 1), ("a", VInt 42), ("b", VText "foo")]] := by decide

open Value in
example :
    get (insert (insert newTable [("name", VText "bob"), ("color", VText "blue")]).1
        [("name", VText "alice"), ("color", VText "red")]).1 [("name", VText "alice")] =
      some [[("rowid", VInt 2), ("name", VText "alice"), ("color", VText "red")]] := by decide

open Value in
example :
    get (insert (insert newTable [("name", VText "bob"), ("color", VText "blue")]).1
        [("name", VText "alice"), ("color", VText "red")]).1 [("name", VText "bill")] =
      some [] := by decide

open Value in
example :
    get (update (insert (insert newTable [("name", VText "bob"), ("color", VText "blue")]).1
        [("name", VText "alice"), ("color", VText "red")]).1
        [("name", VText "alice")] [("color", VText "green")]).1 [] =
      some [[("rowid", VInt 1), ("name", VText "bob"), ("color", VText "blue")],
        [("rowid", VInt 2), ("name", VText "alice"), ("color", VText "green")]] := by decide

open Value in
example :
    get (upsert newTable [("name", VText "bob")]
        [("name", VText "bob"), ("color", VText "blue")]).1 [] =
      some [[("rowid", VInt 1), ("name", VText "bob"), ("color", VText "blue")]] := by decide

open Value in
example :
    get (upsert (upsert newTable [("name", VText "bob")]
          [("name", VText "bob"), ("color", VText "blue")]).1
        [("name", VText "bob")] [("name", VText "jane"), ("color", VText "blue")]).1 [] =
      some [[("rowid", VInt 1), ("name", VText "jane"), ("color", VText "blue")]] := by decide

open Value in
example :
    get (delete (insert (insert newTable [("name", VText "alice"), ("color", VText "red")]).1
        [("name", VText "bob"), ("color", VText "blue")]).1 [("name", VText "alice")]).1 [] =
      some [[("rowid", VInt 2), ("name", VText "bob"), ("color", VText "blue")]] := by decide

open Value in
example :
    (expand newTable [("i", VInt 42), ("f", VReal "3.141"), ("s", VText "magic")]).1.cols =
      [("rowid", SqlType.INTEGER), ("i", SqlType.INTEGER), ("f", SqlType.REAL),
        ("s", SqlType.TEXT)] := by decide

/-! ### Basic helper lemmas: characters, lower-casing, the string order -/

theorem char_eq_of_toNat (c d : Char) (h : c.toNat = d.toNat) : c = d := by
  apply Char.ext
  apply UInt32.ext
  exact h

theorem charsLe_total (a : List Char) : ∀ b, charsLe a b = true ∨ charsLe b a = true := by
  induction a with
  | nil => intro b; left; rfl
  | cons x xs ih =>
    intro b
    cases b with
    | nil => right; rfl
    | cons y ys =>
      rcases Nat.lt_trichotomy x.toNat y.toNat with h | h | h
      · left; simp [charsLe, h]
      · have h1 : ¬ x.toNat < y.toNat := by omega
        have h2 : ¬ y.toNat < x.toNat := by omega
        rcases ih ys with hl | hr
        · left; simp [charsLe, h1, h2, hl]
        · right; simp [charsLe, h1, h2, hr]
      · right; simp [charsLe, h]

theorem charsLe_trans (a : List Char) :
    ∀ b c, charsLe a b = true → charsLe b c = true → charsLe a c = true := by
  induction a with
  | nil => intro b c _ _; rfl
  | cons x xs ih =>
    intro b c hab hbc
    cases b with
    | nil => simp [charsLe] at hab
    | cons y ys =>
      cases c with
      | nil => simp [charsLe] at hbc
      | cons z zs =>
        by_cases h1 : x.toNat < y.toNat
        · by_cases h2 : y.toNat < z.toNat
          · have h3 : x.toNat < z.toNat := by omega
            simp [charsLe, h3]
          · by_cases h3 : z.toNat < y.toNat
            · simp [charsLe, h2, h3] at hbc
            · have h4 : x.toNat < z.toNat := by omega
              simp [charsLe, h4]
        · by_cases h4 : y.toNat < x.toNat
          · simp [charsLe, h1, h4] at hab
          · by_cases h2 : y.toNat < z.toNat
            · have h5 : x.toNat < z.toNat := by omega
              simp [charsLe, h5]
            · by_cases h3 : z.toNat < y.toNat
              · simp [charsLe, h2, h3] at hbc
              · have h5 : ¬ x.toNat < z.toNat := by omega
                have h6 : ¬ z.toNat < x.toNat := by omega
                have hab' : charsLe xs ys = true := by simpa [charsLe, h1, h4] using hab
                have hbc' : charsLe ys zs = true := by simpa [charsLe, h2, h3] using hbc
                simpa [charsLe, h5, h6] using ih ys zs hab' hbc'

theorem charsLe_antisymm (a : List Char) :
    ∀ b, charsLe a b = true → charsLe b a = true → a = b := by
  induction a with
  | nil =>
    intro b _ hba
    cases b with
    | nil => rfl
    | cons y ys => simp [charsLe] at hba
  | cons x xs ih =>
    intro b hab hba
    cases b with
    | nil => simp [charsLe] at hab
    | cons y ys =>
      by_cases h1 : x.toNat < y.toNat
      · have h2 : ¬ y.toNat < x.toNat := by omega
        simp [charsLe, h1, h2] at hba
      · by_cases h2 : y.toNat < x.toNat
        · simp [charsLe, h1, h2] at hab
        · have hx : x = y := char_eq_of_toNat x y (by omega)
          subst hx
          have hab' : charsLe xs ys = true := by simpa [charsLe, h1, h2] using hab
          have hba' : charsLe ys xs = true := by simpa [charsLe, h1, h2] using hba
          rw [ih ys hab' hba']

instance : IsTotal String (fun a b => strLe a b = true) :=
  ⟨fun a b => charsLe_total a.data b.data⟩

instance : IsTrans String (fun a b => strLe a b = true) :=
  ⟨fun a b c => charsLe_trans a.data b.data c.data⟩

instance : IsAntisymm String (fun a b => strLe a b = true) :=
  ⟨fun a b h1 h2 => String.ext (charsLe_antisymm a.data b.data h1 h2)⟩

theorem toNat_ofNat_lower (n : Nat) (h1 : 97 ≤ n) (h2 : n ≤ 122) :
    (Char.ofNat n).toNat = n := by
  interval_cases n <;> decide

theorem lowerChar_idem (c : Char) : lowerChar (lowerChar c) = lowerChar c := by
  unfold lowerChar
  by_cases h : 65 ≤ c.toNat ∧ c.toNat ≤ 90
  · rw [if_pos h]
    have ht : (Char.ofNat (c.toNat + 32)).toNat = c.toNat + 32 :=
      toNat_ofNat_lower _ (by omega) (by omega)
    have hn : ¬ (65 ≤ (Char.ofNat (c.toNat + 32)).toNat ∧ (Char.ofNat (c.toNat + 32)).toNat ≤ 90) := by
      rw [ht]; omega
    rw [if_neg hn]
  · rw [if_neg h, if_neg h]

theorem pyLower_idem (s : String) : pyLower (pyLower s) = pyLower s := by
  unfold pyLower
  apply String.ext
  simp only [List.map_map]
  apply List.map_congr_left
  intro c _
  exact lowerChar_idem c

theorem pyLower_fix_of_mem_colsLower (cols : List Col) (x : String)
    (h : x ∈ colsLower cols) : pyLower x = x := by
  unfold colsLower at h
  rcases List.mem_map.mp h with ⟨c, _, hc⟩
  rw [← hc, pyLower_idem]

/-! ### Column-name resolution lemmas -/

theorem colIndexCI_lt_length (cols : List Col) (k : String) :
    ∀ i, colIndexCI cols k = some i → i < cols.length := by
  induction cols with
  | nil => intro i h; simp [colIndexCI] at h
  | cons c rest ih =>
    intro i h
    by_cases hc : pyLower c.1 = pyLower k
    · simp [colIndexCI, hc] at h
      simp only [List.length_cons]
      omega
    · simp only [colIndexCI, if_neg hc] at h
      rcases hr : colIndexCI rest k with _ | j
      · rw [hr] at h; simp at h
      · rw [hr] at h; simp at h
        have hj := ih j hr
        simp only [List.length_cons]
        omega

theorem colIndexCI_append_left (a b : List Col) (k : String) :
    ∀ i, colIndexCI a k = some i → colIndexCI (a ++ b) k = some i := by
  induction a with
  | nil => intro i h; simp [colIndexCI] at h
  | cons c rest ih =>
    intro i h
    rw [List.cons_append]
    by_cases hc : pyLower c.1 = pyLower k
    · simp [colIndexCI, hc] at h ⊢
      exact h
    · simp only [colIndexCI, if_neg hc] at h ⊢
      rcases hr : colIndexCI rest k with _ | j
      · rw [hr] at h; simp at h
      · rw [hr] at h
        simp at h
        rw [ih j hr]
        simp [h]

theorem colIndexCI_none_iff (cols : List Col) (k : String) :
    colIndexCI cols k = none ↔ ∀ c ∈ cols, pyLower c.1 ≠ pyLower k := by
  induction cols with
  | nil => simp [colIndexCI]
  | cons c rest ih =>
    by_cases hc : pyLower c.1 = pyLower k
    · simp [colIndexCI, hc]
    · simp [colIndexCI, hc, Option.map_eq_none', ih]

theorem colIndexCI_is_none_of_not_mem (cols : List Col) (k : String)
    (h : pyLower k ∉ colsLower cols) : colIndexCI cols k = none := by
  rw [colIndexCI_none_iff]
  intro c hc he
  exact h (by rw [← he]; exact List.mem_map_of_mem _ hc)

theorem mem_colsLower_of_colIndexCI (cols : List Col) (k : String)
    (h : colIndexCI cols k ≠ none) : pyLower k ∈ colsLower cols := by
  by_contra hmem
  exact h (colIndexCI_is_none_of_not_mem cols k hmem)

theorem colIndexCI_some_of_mem (cols : List Col) (k : String)
    (h : pyLower k ∈ colsLower cols) : ∃ i, colIndexCI cols k = some i := by
  rcases hv : colIndexCI cols k with _ | i
  · rw [colIndexCI_none_iff] at hv
    rcases List.mem_map.mp h with ⟨c, hc, he⟩
    exact absurd he (hv c hc)
  · exact ⟨i, rfl⟩

theorem getD_map_lt {α β : Type _} (l : List α) (f : α → β) (p : Nat)
    (h : p < l.length) (d : α) (d' : β) : (l.map f).getD p d' = f (l.getD p d) := by
  rw [List.getD_eq_getElem _ _ (by simpa using h), List.getD_eq_getElem _ _ h, List.getElem_map]

theorem rowVal_map (cols : List Col) (f : Col → Value) (k : String) :
    rowVal cols (cols.map f) k =
      (match cols.find? (fun c => decide (pyLower c.1 = pyLower k)) with
        | some c => f c
        | none => Value.VNull) := by
  induction cols with
  | nil => simp [rowVal, colIndexCI]
  | cons c rest ih =>
    rw [List.find?_cons]
    by_cases hc : pyLower c.1 = pyLower k
    · simp only [decide_eq_true hc]
      simp [rowVal, colIndexCI, hc]
    · simp only [decide_eq_false hc]
      rw [← ih]
      rcases hr : colIndexCI rest k with _ | j
      · simp [rowVal, colIndexCI, hc, hr]
      · simp [rowVal, colIndexCI, hc, hr]

/-! ### Record lookup lemmas -/

theorem lookupVal_eq_some_mem (r : Record) (k : String) (v : Value)
    (h : lookupVal r k = some v) : (k, v) ∈ r := by
  unfold lookupVal at h
  rcases hf : r.find? (fun kv => decide (kv.1 = k)) with _ | kv
  · rw [hf] at h; simp at h
  · rw [hf] at h
    simp at h
    have hm := List.mem_of_find?_eq_some hf
    have hk : kv.1 = k := by simpa using List.find?_some hf
    have : (k, v) = kv := by
      rw [← hk, ← h]
    rw [this]
    exact hm

theorem lookupVal_isSome_of_mem_keys (r : Record) (k : String)
    (h : k ∈ r.map Prod.fst) : ∃ v, lookupVal r k = some v := by
  rcases List.mem_map.mp h with ⟨kv, hkv, he⟩
  have : (r.find? (fun kv => decide (kv.1 = k))).isSome := by
    rw [List.find?_isSome]
    exact ⟨kv, hkv, by simpa using he⟩
  rcases hf : r.find? (fun kv => decide (kv.1 = k)) with _ | kv'
  · rw [hf] at this; simp at this
  · exact ⟨kv'.2, by simp [lookupVal, hf]⟩

theorem lookupVal_of_mem_nodup (r : Record) (kv : String × Value)
    (hnd : (r.map Prod.fst).Nodup) (hm : kv ∈ r) : lookupVal r kv.1 = some kv.2 := by
  induction r with
  | nil => simp at hm
  | cons hd tl ih =>
    rcases List.mem_cons.mp hm with he | ht
    · subst he
      simp [lookupVal, List.find?_cons]
    · have hne : hd.1 ≠ kv.1 := by
        intro he
        have : kv.1 ∈ tl.map Prod.fst := List.mem_map_of_mem _ ht
        rw [← he] at this
        exact (List.nodup_cons.mp (by simpa using hnd)).1 this
      have : lookupVal tl kv.1 = some kv.2 :=
        ih (List.nodup_cons.mp (by simpa using hnd)).2 ht
      simpa [lookupVal, List.find?_cons, hne] using this

theorem nodup_lower_filter (r : Record) (p : String × Value → Bool)
    (hnd : (r.map (fun kv => pyLower kv.1)).Nodup) :
    ((r.filter p).map (fun kv => pyLower kv.1)).Nodup :=
  List.Nodup.sublist (List.Sublist.map _ (List.filter_sublist r)) hnd

theorem eq_of_mem_lower_nodup (l : Record) (kv1 kv2 : String × Value)
    (hnd : (l.map (fun kv => pyLower kv.1)).Nodup) (h1 : kv1 ∈ l) (h2 : kv2 ∈ l)
    (he : pyLower kv2.1 = pyLower kv1.1) : kv2 = kv1 := by
  induction l with
  | nil => simp at h1
  | cons hd tl ih =>
    simp only [List.map_cons, List.nodup_cons] at hnd
    rcases List.mem_cons.mp h1 with he1 | ht1 <;> rcases List.mem_cons.mp h2 with he2 | ht2
    · rw [he1, he2]
    · exfalso
      apply hnd.1
      rw [← he1, ← he]
      exact List.mem_map_of_mem _ ht2
    · exfalso
      apply hnd.1
      rw [← he2, he]
      exact List.mem_map_of_mem _ ht1
    · exact ih hnd.2 ht1 ht2

/-! ### The schema evolution performed by `expand` -/

theorem expandLoop_noadd (fields : List (String × Value)) : ∀ st : St,
    (∀ kv ∈ fields, pyLower kv.1 ∈ st.snapshot ∨ kv.2 = Value.VNull) →
    expandLoop st fields = ({ st with snapshot := colsLower st.cols }, true) := by
  induction fields with
  | nil => intro st _; rfl
  | cons kv rest ih =>
    intro st h
    by_cases hin : pyLower kv.1 ∈ st.snapshot
    · simp only [expandLoop, if_pos hin]
      exact ih st fun kv' h' => h kv' (List.mem_cons_of_mem _ h')
    · have hnull : kv.2 = Value.VNull := (h kv (List.mem_cons_self _ _)).resolve_left hin
      simp only [expandLoop, if_neg hin, if_pos hnull]
      exact ih st fun kv' h' => h kv' (List.mem_cons_of_mem _ h')

theorem expandLoop_ok (fields : List (String × Value)) : ∀ st st' : St,
    expandLoop st fields = (st', true) →
    (∃ ex, st'.cols = st.cols ++ ex) ∧ st'.snapshot = colsLower st'.cols ∧
      ∀ kv ∈ fields, kv.2 ≠ Value.VNull →
        pyLower kv.1 ∈ st.snapshot ∨ pyLower kv.1 ∈ colsLower st'.cols := by
  induction fields with
  | nil =>
    intro st st' h
    simp only [expandLoop, Prod.mk.injEq] at h
    obtain ⟨h1, -⟩ := h
    subst h1
    refine ⟨⟨[], by simp⟩, rfl, by simp⟩
  | cons kv rest ih =>
    intro st st' h
    by_cases hin : pyLower kv.1 ∈ st.snapshot
    · simp only [expandLoop, if_pos hin] at h
      obtain ⟨hex, hsnap, hcov⟩ := ih st st' h
      refine ⟨hex, hsnap, ?_⟩
      intro kv' h' hnn
      rcases List.mem_cons.mp h' with he | hm
      · subst he; exact Or.inl hin
      · exact hcov kv' hm hnn
    · by_cases hnull : kv.2 = Value.VNull
      · simp only [expandLoop, if_neg hin, if_pos hnull] at h
        obtain ⟨hex, hsnap, hcov⟩ := ih st st' h
        refine ⟨hex, hsnap, ?_⟩
        intro kv' h' hnn
        rcases List.mem_cons.mp h' with he | hm
        · subst he; exact absurd hnull hnn
        · exact hcov kv' hm hnn
      · simp only [expandLoop, if_neg hin, if_neg hnull] at h
        by_cases hmem : pyLower kv.1 ∈ colsLower st.cols
        · simp [addColumn, hmem] at h
        · simp only [addColumn, if_neg hmem, if_pos] at h
          obtain ⟨⟨ex, hex⟩, hsnap, hcov⟩ := ih _ st' h
          simp only at hex
          refine ⟨⟨(kv.1, inferType kv.2) :: ex, by rw [hex, List.append_assoc]; rfl⟩, hsnap, ?_⟩
          intro kv' h' hnn
          rcases List.mem_cons.mp h' with he | hm
          · right
            rw [he]
            have hc : (kv.1, inferType kv.2) ∈ st'.cols := by
              rw [hex]
              exact List.mem_append_left _ (List.mem_append_right _ (by simp))
            exact List.mem_map_of_mem _ hc
          · exact hcov kv' hm hnn

theorem expandLoop_spec (fields : List (String × Value)) : ∀ st : St,
    (∀ kv ∈ fields, pyLower kv.1 ∉ st.snapshot → kv.2 ≠ Value.VNull →
      pyLower kv.1 ∉ colsLower st.cols) →
    (fields.map (fun kv => pyLower kv.1)).Nodup →
    expandLoop st fields =
      ({ cols := st.cols ++ addedCols st.snapshot fields,
         rows := st.rows.map (fun row =>
           row ++ List.replicate (addedCols st.snapshot fields).length Value.VNull),
         snapshot := colsLower (st.cols ++ addedCols st.snapshot fields) }, true) := by
  induction fields with
  | nil =>
    intro st _ _
    obtain ⟨cs, rws, snap⟩ := st
    simp [expandLoop, addedCols]
  | cons kv rest ih =>
    intro st hfresh hnd
    simp only [List.map_cons, List.nodup_cons] at hnd
    by_cases hin : pyLower kv.1 ∈ st.snapshot
    · have hadd : addedCols st.snapshot (kv :: rest) = addedCols st.snapshot rest := by
        simp [addedCols, List.filter_cons, hin]
      rw [hadd]
      simp only [expandLoop, if_pos hin]
      exact ih st (fun kv' h' => hfresh kv' (List.mem_cons_of_mem _ h')) hnd.2
    · by_cases hnull : kv.2 = Value.VNull
      · have hadd : addedCols st.snapshot (kv :: rest) = addedCols st.snapshot rest := by
          simp [addedCols, List.filter_cons, hnull]
        rw [hadd]
        simp only [expandLoop, if_neg hin, if_pos hnull]
        exact ih st (fun kv' h' => hfresh kv' (List.mem_cons_of_mem _ h')) hnd.2
      · have hadd : addedCols st.snapshot (kv :: rest) =
            (kv.1, inferType kv.2) :: addedCols st.snapshot rest := by
          simp [addedCols, List.filter_cons, hin, hnull]
        have hmem : pyLower kv.1 ∉ colsLower st.cols :=
          hfresh kv (List.mem_cons_self _ _) hin hnull
        rw [hadd]
        simp only [expandLoop, if_neg hin, if_neg hnull]
        simp only [addColumn, if_neg hmem, if_pos]
        have hmid := ih { st with
            cols := st.cols ++ [(kv.1, inferType kv.2)],
            rows := st.rows.map (fun row => row ++ [Value.VNull]) }
          (by
            intro kv' h' hsn hnn
            simp only [colsLower, List.map_append, List.map_cons, List.map_nil] at *
            rw [List.mem_append]
            rintro (hl | hr)
            · exact hfresh kv' (List.mem_cons_of_mem _ h') hsn hnn hl
            · simp at hr
              exact hnd.1 (hr ▸ List.mem_map_of_mem _ h'))
          hnd.2
        rw [hmid]
        simp only [Prod.mk.injEq, St.mk.injEq, and_true]
        refine ⟨?_, ?_, ?_⟩
        · simp [List.append_assoc]
        · rw [List.map_map]
          apply List.map_congr_left
          intro row _
          simp [List.replicate_succ, List.append_assoc]
        · simp [List.append_assoc]

theorem expand_spec (st : St) (r : Record) (hInv : Inv st)
    (hnd : (r.map (fun kv => pyLower kv.1)).Nodup) :
    expand st r =
      ({ cols := st.cols ++ addedCols st.snapshot r,
         rows := st.rows.map (fun row =>
           row ++ List.replicate (addedCols st.snapshot r).length Value.VNull),
         snapshot := colsLower (st.cols ++ addedCols st.snapshot r) }, true) := by
  obtain ⟨hsnap, hnodup, hrowid, hrows⟩ := hInv
  unfold expand
  have hmem_lower : ∀ kv : String × Value, pyLower kv.1 ∉ st.snapshot → kv.1 ∉ st.snapshot := by
    intro kv h hk
    apply h
    have hfix : pyLower kv.1 = kv.1 := by
      rw [hsnap] at hk
      exact pyLower_fix_of_mem_colsLower _ _ hk
    rw [hfix]
    exact hk
  have hfil : addedCols st.snapshot (r.filter (fun kv => decide (kv.1 ∉ st.snapshot))) =
      addedCols st.snapshot r := by
    unfold addedCols
    rw [List.filter_filter]
    congr 1
    apply List.filter_congr
    intro kv _
    by_cases hp1 : pyLower kv.1 ∉ st.snapshot
    · by_cases hp2 : kv.2 ≠ Value.VNull
      · have h1 : kv.1 ∉ st.snapshot := hmem_lower kv hp1
        simp [hp1, hp2, h1]
      · simp [hp2]
    · simp [hp1]
  have hfresh : ∀ kv ∈ r.filter (fun kv => decide (kv.1 ∉ st.snapshot)),
      pyLower kv.1 ∉ st.snapshot → kv.2 ≠ Value.VNull → pyLower kv.1 ∉ colsLower st.cols := by
    intro kv _ hsn _
    rw [← hsnap]
    exact hsn
  have hnd' := nodup_lower_filter r (fun kv => decide (kv.1 ∉ st.snapshot)) hnd
  rw [expandLoop_spec (r.filter (fun kv => decide (kv.1 ∉ st.snapshot))) st hfresh hnd', hfil]

theorem expandIfNeeded_valid (st : St) (r : Record) (hInv : Inv st)
    (hnd : (r.map (fun kv => pyLower kv.1)).Nodup) :
    ∃ ex : List Col,
      expandIfNeeded st r =
        ({ cols := st.cols ++ ex,
           rows := st.rows.map (fun row => row ++ List.replicate ex.length Value.VNull),
           snapshot := colsLower (st.cols ++ ex) }, true) ∧
      (colsLower (st.cols ++ ex)).Nodup ∧
      (∀ kv ∈ r, kv.2 ≠ Value.VNull → pyLower kv.1 ∈ colsLower (st.cols ++ ex)) ∧
      (∀ c ∈ ex, ∃ kv ∈ r, c.1 = kv.1 ∧ c.2 = inferType kv.2 ∧
        pyLower kv.1 ∉ st.snapshot ∧ kv.2 ≠ Value.VNull) := by
  obtain ⟨hsnap, hnodup, hrowid, hrows⟩ := hInv
  unfold expandIfNeeded
  by_cases hset : (∀ x ∈ st.snapshot, x ∈ (r.map Prod.fst).map pyLower) ∧
      ∀ x ∈ (r.map Prod.fst).map pyLower, x ∈ st.snapshot
  · refine ⟨[], ?_, by simpa using hnodup, ?_, by simp⟩
    · rw [if_pos hset]
      simp [← hsnap]
    · intro kv hm _
      simp only [List.append_nil]
      rw [← hsnap]
      exact hset.2 _ (List.mem_map_of_mem _ (List.mem_map_of_mem _ hm))
  · rw [if_neg hset]
    refine ⟨addedCols st.snapshot r,
      expand_spec st r ⟨hsnap, hnodup, hrowid, hrows⟩ hnd, ?_, ?_, ?_⟩
    · simp only [colsLower, List.map_append]
      rw [List.nodup_append]
      refine ⟨hnodup, ?_, ?_⟩
      · unfold addedCols
        rw [List.map_map]
        exact nodup_lower_filter r _ hnd
      · intro x hx1 hx2
        unfold addedCols at hx2
        rw [List.map_map] at hx2
        rcases List.mem_map.mp hx2 with ⟨kv, hkv, he⟩
        rcases List.mem_filter.mp hkv with ⟨-, hp⟩
        simp only [Bool.and_eq_true, decide_eq_true_eq] at hp
        apply hp.1
        rw [hsnap]
        have : pyLower kv.1 = x := he
        rw [this]
        exact hx1
    · intro kv hm hnn
      by_cases hin : pyLower kv.1 ∈ st.snapshot
      · rw [hsnap] at hin
        simp only [colsLower, List.map_append]
        exact List.mem_append_left _ hin
      · simp only [colsLower, List.map_append]
        apply List.mem_append_right
        unfold addedCols
        rw [List.map_map]
        have hmemf : kv ∈ r.filter
            (fun kv => decide (pyLower kv.1 ∉ st.snapshot) && decide (kv.2 ≠ Value.VNull)) :=
          List.mem_filter.mpr ⟨hm, by simp [hin, hnn]⟩
        exact List.mem_map_of_mem _ hmemf
    · intro c hc
      unfold addedCols at hc
      rcases List.mem_map.mp hc with ⟨kv, hkv, he⟩
      rcases List.mem_filter.mp hkv with ⟨hm, hp⟩
      simp only [Bool.and_eq_true, decide_eq_true_eq] at hp
      exact ⟨kv, hm, by rw [← he], by rw [← he], hp.1, hp.2⟩

/-! ### Facts preserved by every successful mutation (for schema monotonicity) -/

theorem SnapGood_of_Inv (st : St) (h : Inv st) : SnapGood st := by
  obtain ⟨hsnap, -, -, -⟩ := h
  constructor
  · intro x hx; rw [hsnap] at hx; exact hx
  · intro x hx; rw [hsnap] at hx; exact pyLower_fix_of_mem_colsLower _ _ hx

theorem expandIfNeeded_ok (st st' : St) (r : Record)
    (h : expandIfNeeded st r = (st', true)) (hg : SnapGood st) :
    SnapGood st' ∧ (∀ x ∈ st.snapshot, x ∈ st'.snapshot) ∧
      ∀ kv ∈ r, kv.2 ≠ Value.VNull → pyLower kv.1 ∈ st'.snapshot := by
  unfold expandIfNeeded at h
  by_cases hset : (∀ x ∈ st.snapshot, x ∈ (r.map Prod.fst).map pyLower) ∧
      ∀ x ∈ (r.map Prod.fst).map pyLower, x ∈ st.snapshot
  · rw [if_pos hset] at h
    have hst : st = st' := congrArg Prod.fst h
    subst hst
    refine ⟨hg, fun x hx => hx, ?_⟩
    intro kv hm _
    exact hset.2 _ (List.mem_map_of_mem _ (List.mem_map_of_mem _ hm))
  · rw [if_neg hset] at h
    unfold expand at h
    obtain ⟨⟨ex, hexc⟩, hsnap', hcov⟩ := expandLoop_ok _ st st' h
    have hsub : ∀ x ∈ st.snapshot, x ∈ st'.snapshot := by
      intro x hx
      rw [hsnap', hexc]
      simp only [colsLower, List.map_append]
      exact List.mem_append_left _ (hg.1 x hx)
    refine ⟨⟨?_, ?_⟩, hsub, ?_⟩
    · intro x hx; rw [hsnap'] at hx; exact hx
    · intro x hx; rw [hsnap'] at hx; exact pyLower_fix_of_mem_colsLower _ _ hx
    · intro kv hm hnn
      by_cases hk : kv.1 ∈ st.snapshot
      · have hfix : pyLower kv.1 = kv.1 := hg.2 _ hk
        rw [hfix]
        exact hsub _ hk
      · have hmf : kv ∈ r.filter (fun kv => decide (kv.1 ∉ st.snapshot)) :=
          List.mem_filter.mpr ⟨hm, by simp [hk]⟩
        rcases hcov kv hmf hnn with hl | hr
        · exact hsub _ hl
        · rw [hsnap']
          exact hr

theorem insert_record_parts (st st' : St) (r : Record)
    (h : insert_record st r = (st', true)) :
    ∃ stE, expandIfNeeded st r = (stE, true) ∧ st'.snapshot = stE.snapshot ∧
      st'.cols = stE.cols := by
  unfold insert_record at h
  rcases hE : expandIfNeeded st r with ⟨stE, bE⟩
  rw [hE] at h
  cases bE
  · simp at h
  · simp only [if_pos] at h
    by_cases hemp : r.filter (fun kv => decide (kv.2 ≠ Value.VNull)) = []
    · rw [if_pos hemp] at h
      simp at h
    · rw [if_neg hemp] at h
      rcases hf : (r.filter (fun kv => decide (kv.2 ≠ Value.VNull))).find?
          (fun kv => decide (pyLower kv.1 = "rowid")) with _ | kv
      · rw [hf] at h
        dsimp only at h
        have hst : _ = st' := congrArg Prod.fst h
        refine ⟨stE, rfl, ?_, ?_⟩ <;> rw [← hst]
      · rw [hf] at h
        dsimp only at h
        rcases hkv2 : kv.2 with _ | n | x | s | b <;> rw [hkv2] at h <;> dsimp only at h
        · simp at h
        · by_cases hdup : ∃ row ∈ stE.rows, rowidVal stE.cols row = n
          · rw [if_pos hdup] at h
            simp at h
          · rw [if_neg hdup] at h
            have hst : _ = st' := congrArg Prod.fst h
            refine ⟨stE, rfl, ?_, ?_⟩ <;> rw [← hst]
        · simp at h
        · simp at h
        · simp at h

theorem update_parts (st st' : St) (m r : Record)
    (h : update st m r = (st', true)) :
    ∃ stE, expandIfNeeded st r = (stE, true) ∧ st'.snapshot = stE.snapshot ∧
      st'.cols = stE.cols := by
  unfold update at h
  rcases hE : expandIfNeeded st r with ⟨stE, bE⟩
  rw [hE] at h
  cases bE
  · simp at h
  · simp only [if_pos] at h
    by_cases hemp : r = []
    · rw [if_pos hemp] at h
      simp at h
    · rw [if_neg hemp] at h
      by_cases hbadr : ∃ kv ∈ r, colIndexCI stE.cols kv.1 = none
      · rw [if_pos hbadr] at h
        simp at h
      · rw [if_neg hbadr] at h
        by_cases hbadm : ∃ kv ∈ m, colIndexCI stE.cols kv.1 = none
        · rw [if_pos hbadm] at h
          simp at h
        · rw [if_neg hbadm] at h
          have hst : _ = st' := congrArg Prod.fst h
          refine ⟨stE, rfl, ?_, ?_⟩ <;> rw [← hst]

theorem insert_eq_record (st : St) (r : Record) :
    insert st r = ((insert_record st r).1, (insert_record st r).2) := by
  unfold insert insert_list insertLoop
  rcases h : insert_record st r with ⟨st1, b⟩
  cases b <;> simp [h, insertLoop]

/-! ### Table extension: how a successful insert relates old and new state -/

theorem Ext_refl (st : St) : Ext st st :=
  ⟨List.take_length _, le_refl _, fun _ _ _ _ => rfl⟩

theorem Ext_trans (a b c : St) (h1 : Ext a b) (h2 : Ext b c) : Ext a c := by
  obtain ⟨t1, l1, v1⟩ := h1
  obtain ⟨t2, l2, v2⟩ := h2
  have hlen : a.cols.length ≤ b.cols.length := by
    have hh := congrArg List.length t1
    rw [List.length_take] at hh
    exact min_eq_left_iff.mp hh
  refine ⟨?_, le_trans l1 l2, ?_⟩
  · have hsplit : List.take a.cols.length c.cols =
        List.take a.cols.length (List.take b.cols.length c.cols) := by
      rw [List.take_take, min_eq_left hlen]
    rw [hsplit, t2, t1]
  · intro p hp i hi
    rw [v2 p (lt_of_lt_of_le hp l1) i (lt_of_lt_of_le hi hlen), v1 p hp i hi]

theorem Agrees_mono (st st' : St) (q : Record) (p : Nat) (hext : Ext st st')
    (hp : p < st.rows.length) (hag : Agrees st.cols (st.rows.getD p []) q) :
    Agrees st'.cols (st'.rows.getD p []) q := by
  obtain ⟨ht, hl, hv⟩ := hext
  intro kv hm hnn
  have h1 := hag kv hm hnn
  rcases hidx : colIndexCI st.cols kv.1 with _ | i
  · simp only [rowVal, hidx] at h1
    exact absurd h1.symm hnn
  · have hi := colIndexCI_lt_length st.cols kv.1 i hidx
    have hidx' : colIndexCI st'.cols kv.1 = some i := by
      have hdecomp : st'.cols = st.cols ++ st'.cols.drop st.cols.length := by
        conv_lhs => rw [← List.take_append_drop st.cols.length st'.cols]
        rw [ht]
      rw [hdecomp]
      exact colIndexCI_append_left _ _ _ i hidx
    simp only [rowVal, hidx] at h1
    simp only [rowVal, hidx']
    rw [hv p hp i hi]
    exact h1

theorem Retr_mono (st st' : St) (r : Record) (hext : Ext st st') (h : Retr st r) :
    Retr st' r := by
  obtain ⟨p, hp, hag⟩ := h
  exact ⟨p, lt_of_lt_of_le hp hext.2.1, Agrees_mono st st' r p hext hp hag⟩

/-! ### The row written by an INSERT -/

theorem rowVal_mkRow_rowid (cols : List Col) (nn : Record) (rid : Int)
    (h : "rowid" ∈ colsLower cols) : rowVal cols (mkRow cols nn rid) "rowid" = Value.VInt rid := by
  unfold mkRow
  rw [rowVal_map]
  have hlow : pyLower "rowid" = "rowid" := by decide
  rcases List.mem_map.mp h with ⟨c0, hc0, he0⟩
  have hsome : (cols.find? (fun c => decide (pyLower c.1 = pyLower "rowid"))).isSome := by
    rw [List.find?_isSome]
    exact ⟨c0, hc0, by simp [he0, hlow]⟩
  rcases hf : cols.find? (fun c => decide (pyLower c.1 = pyLower "rowid")) with _ | c
  · rw [hf] at hsome; simp at hsome
  · simp only [hf]
    have hpc : pyLower c.1 = pyLower "rowid" := by simpa using List.find?_some hf
    rw [hlow] at hpc
    rw [if_pos hpc]

theorem rowVal_mkRow_field (cols : List Col) (nn : Record) (rid : Int) (kv : String × Value)
    (hm : kv ∈ nn) (hnr : pyLower kv.1 ≠ "rowid")
    (huniq : ∀ kv' ∈ nn, pyLower kv'.1 = pyLower kv.1 → kv' = kv)
    (hc : pyLower kv.1 ∈ colsLower cols) :
    rowVal cols (mkRow cols nn rid) kv.1 = kv.2 := by
  unfold mkRow
  rw [rowVal_map]
  rcases List.mem_map.mp hc with ⟨c0, hc0, he0⟩
  have hsome : (cols.find? (fun c => decide (pyLower c.1 = pyLower kv.1))).isSome := by
    rw [List.find?_isSome]
    exact ⟨c0, hc0, by simp [he0]⟩
  rcases hf : cols.find? (fun c => decide (pyLower c.1 = pyLower kv.1)) with _ | c
  · rw [hf] at hsome; simp at hsome
  · simp only [hf]
    have hpc : pyLower c.1 = pyLower kv.1 := by simpa using List.find?_some hf
    rw [if_neg (by rw [hpc]; exact hnr)]
    have hsome2 : (nn.find? (fun kv' => decide (pyLower kv'.1 = pyLower c.1))).isSome := by
      rw [List.find?_isSome]
      exact ⟨kv, hm, by simp [hpc]⟩
    rcases hf2 : nn.find? (fun kv' => decide (pyLower kv'.1 = pyLower c.1)) with _ | kv2
    · rw [hf2] at hsome2; simp at hsome2
    · simp only [hf2]
      have hp2 : pyLower kv2.1 = pyLower c.1 := by simpa using List.find?_some hf2
      have he2 : kv2 = kv := huniq kv2 (List.mem_of_find?_eq_some hf2) (by rw [hp2, hpc])
      rw [he2]

theorem mkRow_length (cols : List Col) (nn : Record) (rid : Int) :
    (mkRow cols nn rid).length = cols.length := by
  unfold mkRow
  exact List.length_map _ _

/-! ### Records that always insert cleanly -/

theorem expandIfNeeded_known (st : St) (r : Record) (hInv : Inv st)
    (hkeys : ∀ kv ∈ r, kv.1 ∈ st.snapshot) :
    expandIfNeeded st r = (st, true) := by
  obtain ⟨hsnap, -, -, -⟩ := hInv
  unfold expandIfNeeded
  by_cases hset : (∀ x ∈ st.snapshot, x ∈ (r.map Prod.fst).map pyLower) ∧
      ∀ x ∈ (r.map Prod.fst).map pyLower, x ∈ st.snapshot
  · rw [if_pos hset]
  · rw [if_neg hset]
    unfold expand
    have hfe : r.filter (fun kv => decide (kv.1 ∉ st.snapshot)) = [] := by
      rw [List.filter_eq_nil_iff]
      intro kv hkv
      simp [hkeys kv hkv]
    rw [hfe]
    simp only [expandLoop]
    rw [← hsnap]

theorem insert_record_exact (st : St) (r : Record) (hInv : Inv st)
    (hkeys : ∀ kv ∈ r, kv.1 ∈ st.snapshot)
    (hne : ∃ kv ∈ r, kv.2 ≠ Value.VNull)
    (hnorow : ∀ kv ∈ r, pyLower kv.1 ≠ "rowid") :
    insert_record st r =
      ({ st with rows := st.rows ++
          [mkRow st.cols (r.filter (fun kv => decide (kv.2 ≠ Value.VNull))) (maxRowid st + 1)] },
        true) := by
  unfold insert_record
  rw [expandIfNeeded_known st r hInv hkeys]
  dsimp only
  have hnnne : ¬ r.filter (fun kv => decide (kv.2 ≠ Value.VNull)) = [] := by
    obtain ⟨kv0, h0, h0n⟩ := hne
    intro hemp
    have hmem : kv0 ∈ r.filter (fun kv => decide (kv.2 ≠ Value.VNull)) :=
      List.mem_filter.mpr ⟨h0, by simp [h0n]⟩
    rw [hemp] at hmem
    simp at hmem
  rw [if_neg hnnne]
  have hfrow : (r.filter (fun kv => decide (kv.2 ≠ Value.VNull))).find?
      (fun kv => decide (pyLower kv.1 = "rowid")) = none := by
    rw [List.find?_eq_none]
    intro kv hkv
    simp only [decide_eq_true_eq]
    exact hnorow kv (List.mem_filter.mp hkv).1
  rw [hfrow]
  rfl

theorem insert_record_reduce (st stE : St) (r : Record)
    (hE : expandIfNeeded st r = (stE, true))
    (hne : ∃ kv ∈ r, kv.2 ≠ Value.VNull)
    (hnorow : ∀ kv ∈ r, pyLower kv.1 ≠ "rowid") :
    insert_record st r =
      ({ stE with rows := stE.rows ++
          [mkRow stE.cols (r.filter (fun kv => decide (kv.2 ≠ Value.VNull))) (maxRowid stE + 1)] },
        true) := by
  unfold insert_record
  rw [hE]
  dsimp only
  have hnnne : ¬ r.filter (fun kv => decide (kv.2 ≠ Value.VNull)) = [] := by
    obtain ⟨kv0, h0, h0n⟩ := hne
    intro hemp
    have hmem : kv0 ∈ r.filter (fun kv => decide (kv.2 ≠ Value.VNull)) :=
      List.mem_filter.mpr ⟨h0, by simp [h0n]⟩
    rw [hemp] at hmem
    simp at hmem
  rw [if_neg hnnne]
  have hfrow : (r.filter (fun kv => decide (kv.2 ≠ Value.VNull))).find?
      (fun kv => decide (pyLower kv.1 = "rowid")) = none := by
    rw [List.find?_eq_none]
    intro kv hkv
    simp only [decide_eq_true_eq]
    exact hnorow kv (List.mem_filter.mp hkv).1
  rw [hfrow]
  rfl

theorem getD_concat_length {α : Type _} (l : List α) (x d : α) :
    (l ++ [x]).getD l.length d = x := by
  induction l with
  | nil => rfl
  | cons y ys ih => simp only [List.cons_append, List.length_cons, List.getD_cons_succ]; exact ih

theorem agrees_newRow (cols : List Col) (r : Record) (rid : Int)
    (hnd : (r.map (fun kv => pyLower kv.1)).Nodup)
    (hnorow : ∀ kv ∈ r, pyLower kv.1 ≠ "rowid")
    (hcov : ∀ kv ∈ r, kv.2 ≠ Value.VNull → pyLower kv.1 ∈ colsLower cols) :
    Agrees cols (mkRow cols (r.filter (fun kv => decide (kv.2 ≠ Value.VNull))) rid) r := by
  intro kv hm hnn
  have hmf : kv ∈ r.filter (fun kv => decide (kv.2 ≠ Value.VNull)) :=
    List.mem_filter.mpr ⟨hm, by simp [hnn]⟩
  apply rowVal_mkRow_field _ _ _ kv hmf (hnorow kv hm)
  · intro kv' hkv' he
    exact eq_of_mem_lower_nodup _ kv kv'
      (nodup_lower_filter r (fun kv => decide (kv.2 ≠ Value.VNull)) hnd)
      hmf hkv' he
  · exact hcov kv hm hnn

theorem insert_record_valid (st : St) (r : Record) (hInv : Inv st) (hv : validRec r) :
    (insert_record st r).2 = true ∧ Inv (insert_record st r).1 ∧
      Ext st (insert_record st r).1 ∧
      (insert_record st r).1.rows.length = st.rows.length + 1 ∧
      Agrees (insert_record st r).1.cols ((insert_record st r).1.rows.getD st.rows.length []) r := by
  obtain ⟨hnd, hex0, hnorow⟩ := hv
  obtain ⟨ex, hE, hnodup', hcov, hprov⟩ := expandIfNeeded_valid st r hInv hnd
  obtain ⟨hsnap, hnodup, hrowid, hrows⟩ := hInv
  have hred := insert_record_reduce st _ r hE hex0 hnorow
  rw [hred]
  dsimp only
  have hmaplen : (st.rows.map (fun row => row ++ List.replicate ex.length Value.VNull)).length =
      st.rows.length := List.length_map _ _
  refine ⟨rfl, ⟨rfl, hnodup', ?_, ?_⟩, ⟨?_, ?_, ?_⟩, ?_, ?_⟩
  · simp only [colsLower, List.map_append]
    exact List.mem_append_left _ hrowid
  · intro row hrow
    rcases List.mem_append.mp hrow with hold | hnew
    · rcases List.mem_map.mp hold with ⟨row0, hrow0, he⟩
      rw [← he]
      simp [hrows row0 hrow0]
    · simp only [List.mem_singleton] at hnew
      rw [hnew, mkRow_length]
  · exact List.take_left _ _
  · simp only [List.length_append, hmaplen, List.length_singleton]
    omega
  · intro p hp i hi
    rw [List.getD_append _ _ _ _ (by rw [hmaplen]; exact hp)]
    rw [getD_map_lt st.rows _ p hp [] []]
    have hmem : st.rows.getD p [] ∈ st.rows := by
      rw [List.getD_eq_getElem _ _ hp]
      exact List.getElem_mem _
    rw [List.getD_append _ _ _ _ (by rw [hrows _ hmem]; exact hi)]
  · simp only [List.length_append, hmaplen, List.length_singleton]
  · rw [← hmaplen, getD_concat_length]
    exact agrees_newRow _ r _ hnd hnorow hcov

/-! ### Claim theorems -/

/-- Claim C9: inserting a record whose every field is None (including the
empty record) makes `_insert_record` generate `INSERT INTO t () VALUES ()`,
which the engine rejects as a syntax error: the insert reports failure and
the table's rows are unchanged. -/
theorem claim_C9 (st : St) (r : Record) (hnull : ∀ kv ∈ r, kv.2 = Value.VNull) :
    (insert st r).2 = false ∧ (insert st r).1.rows = st.rows := by
  rw [insert_eq_record]
  have hE : ∃ snap', expandIfNeeded st r = ({ st with snapshot := snap' }, true) := by
    unfold expandIfNeeded
    by_cases hset : (∀ x ∈ st.snapshot, x ∈ (r.map Prod.fst).map pyLower) ∧
        ∀ x ∈ (r.map Prod.fst).map pyLower, x ∈ st.snapshot
    · rw [if_pos hset]
      exact ⟨st.snapshot, rfl⟩
    · rw [if_neg hset]
      unfold expand
      rw [expandLoop_noadd _ st
        (fun kv hkv => Or.inr (hnull kv (List.mem_filter.mp hkv).1))]
      exact ⟨colsLower st.cols, rfl⟩
  obtain ⟨snap', hE⟩ := hE
  unfold insert_record
  rw [hE]
  dsimp only
  have hemp : r.filter (fun kv => decide (kv.2 ≠ Value.VNull)) = [] := by
    rw [List.filter_eq_nil_iff]
    intro kv hkv
    simp [hnull kv hkv]
  rw [if_pos hemp]
  exact ⟨rfl, rfl⟩

theorem claim_C9_witness :
    (∀ kv ∈ ([("a", Value.VNull)] : Record), kv.2 = Value.VNull) ∧
    (insert newTable [("a", Value.VNull)]).2 = false ∧
    (insert newTable [("a", Value.VNull)]).1.rows = newTable.rows :=
  ⟨by decide, claim_C9 newTable [("a", Value.VNull)] (by decide)⟩

/-- Claim C4: whenever some key of `matching` is not a known column — known
means its lower-casing appears in the schema tracker's snapshot — `get`
returns the `None` sentinel without raising, and `get_one` propagates the
same condition as `None`. -/
theorem claim_C4 (st : St) (m : Record) (kv : String × Value) (hInv : Inv st)
    (hkv : kv ∈ m) (hunk : pyLower kv.1 ∉ st.snapshot) :
    get st m = none ∧ get_one st m = none := by
  have hk : kv.1 ∉ st.snapshot := by
    intro hin
    apply hunk
    have hfix : pyLower kv.1 = kv.1 := (SnapGood_of_Inv st hInv).2 _ hin
    rw [hfix]
    exact hin
  have hg : get st m = none := by
    unfold get
    rw [if_neg]
    intro hall
    exact hk (hall kv hkv)
  refine ⟨hg, ?_⟩
  unfold get_one
  rw [hg]

theorem claim_C4_witness :
    Inv newTable ∧ ("nope", Value.VInt 1) ∈ ([("nope", Value.VInt 1)] : Record) ∧
    pyLower "nope" ∉ newTable.snapshot ∧
    get newTable [("nope", Value.VInt 1)] = none ∧
    get_one newTable [("nope", Value.VInt 1)] = none := by
  have h := claim_C4 newTable [("nope", Value.VInt 1)] ("nope", Value.VInt 1)
    (by decide) (by decide) (by decide)
  exact ⟨by decide, by decide, by decide, h.1, h.2⟩

/-- Claim C10: `delete` performs no known-column guard — with a matching
key that resolves to no column (case-insensitively), the generated DELETE
references a nonexistent column, so the engine errors and the state is
unchanged (no rows deleted), while `get` on the same matching returns its
not-found sentinel instead. -/
theorem claim_C10 (st : St) (m : Record) (kv : String × Value) (hInv : Inv st)
    (hkv : kv ∈ m) (hunk : pyLower kv.1 ∉ colsLower st.cols) :
    delete st m = (st, false) ∧ get st m = none := by
  have hnone : colIndexCI st.cols kv.1 = none := colIndexCI_is_none_of_not_mem _ _ hunk
  obtain ⟨hsnap, -, -, -⟩ := hInv
  constructor
  · unfold delete
    rw [if_pos ⟨kv, hkv, hnone⟩]
  · unfold get
    rw [if_neg]
    intro hall
    have hin := hall kv hkv
    rw [hsnap] at hin
    apply hunk
    have hfix : pyLower kv.1 = kv.1 := pyLower_fix_of_mem_colsLower _ _ hin
    rw [hfix]
    exact hin

theorem claim_C10_witness :
    Inv newTable ∧ ("nope", Value.VInt 1) ∈ ([("nope", Value.VInt 1)] : Record) ∧
    pyLower "nope" ∉ colsLower newTable.cols ∧
    delete newTable [("nope", Value.VInt 1)] = (newTable, false) :=
  ⟨by decide, by decide, by decide,
    (claim_C10 newTable [("nope", Value.VInt 1)] ("nope", Value.VInt 1)
      (by decide) (by decide) (by decide)).1⟩

/-- Claim C2: `upsert(matching, record)` performs `update(matching, record)`
exactly when a first row matching `matching` exists (also: when `get`
returns its guard sentinel the insert branch is taken), and otherwise
performs `insert(record)` — with `record` alone, never the union of
`matching` and `record`.  Concretely, after
`upsert({'name':'bob'}, {'color':'blue'})` on a fresh table the inserted
row does not satisfy the matching predicate: the subsequent
`get_one({'name':'bob'})` returns `None`. -/
theorem claim_C2 :
    (∀ (st : St) (m r : Record), ((get st m).bind List.head?).isSome = false →
      upsert st m r = insert st r) ∧
    (∀ (st : St) (m r : Record), ((get st m).bind List.head?).isSome = true →
      upsert st m r = update st m r) ∧
    get_one (upsert newTable [("name", Value.VText "bob")] [("color", Value.VText "blue")]).1
      [("name", Value.VText "bob")] = none := by
  refine ⟨?_, ?_, by decide⟩
  · intro st m r h
    unfold upsert
    rcases hg : get st m with _ | l
    · rfl
    · dsimp only
      rcases hl : l.head? with _ | x
      · rfl
      · simp [hg, hl] at h
  · intro st m r h
    unfold upsert
    rcases hg : get st m with _ | l
    · rw [hg] at h
      simp at h
    · dsimp only
      rcases hl : l.head? with _ | x
      · simp [hg, hl] at h
      · rfl

theorem claim_C2_witness :
    upsert newTable [("a", Value.VInt 1)] [("b", Value.VInt 2)] =
      insert newTable [("b", Value.VInt 2)] :=
  claim_C2.1 newTable [("a", Value.VInt 1)] [("b", Value.VInt 2)] (by decide)

/-- Claim C5 counterexample: the record `{'A': 1, 'a': 2}` on a fresh table
has two fields that are case-insensitively unknown and non-None, so per the
claim two columns should be added; but `expand` only checks the stale
snapshot inside its loop, so after adding column "A" the ALTER for "a"
collides at sqlite's case-folding level: the operation fails with only one
column created — not "exactly one column for each" such field. -/
theorem claim_C5_cex :
    (expand newTable [("A", Value.VInt 1), ("a", Value.VInt 2)]).2 = false ∧
    (expand newTable [("A", Value.VInt 1), ("a", Value.VInt 2)]).1.cols =
      [("rowid", SqlType.INTEGER), ("A", SqlType.INTEGER)] := by decide

/-- Claim C5 (amended): provided no two fields of the record share the same
lower-cased name, `expand` succeeds and adds exactly one column for each
field whose lower-cased name is not in the snapshot and whose value is not
None — typed INTEGER for integers, REAL for floats, TEXT for strings and
BLOB otherwise via `inferType` — skipping None-valued fields and fields
matching an existing column in another case, and refreshing the snapshot
from the new column set. -/
theorem claim_C5 (st : St) (r : Record) (hInv : Inv st)
    (hnd : (r.map (fun kv => pyLower kv.1)).Nodup) :
    (expand st r).2 = true ∧
    (expand st r).1.cols = st.cols ++
      (r.filter (fun kv => decide (pyLower kv.1 ∉ st.snapshot) && decide (kv.2 ≠ Value.VNull))).map
        (fun kv => (kv.1, inferType kv.2)) ∧
    (expand st r).1.snapshot = colsLower (expand st r).1.cols := by
  have h := expand_spec st r hInv hnd
  rw [h]
  exact ⟨rfl, rfl, rfl⟩

theorem claim_C5_witness :
    Inv newTable ∧
    ((([("i", Value.VInt 42), ("f", Value.VReal "3.141"), ("s", Value.VText "magic"),
        ("z", Value.VNull)] : Record).map (fun kv => pyLower kv.1)).Nodup) ∧
    (expand newTable [("i", Value.VInt 42), ("f", Value.VReal "3.141"),
      ("s", Value.VText "magic"), ("z", Value.VNull)]).2 = true :=
  ⟨by decide, by decide,
    (claim_C5 newTable
      [("i", Value.VInt 42), ("f", Value.VReal "3.141"), ("s", Value.VText "magic"),
        ("z", Value.VNull)] (by decide) (by decide)).1⟩

theorem mkAndsLoop_eq (ks : List String) (sel : Record)
    (h : ∀ n ∈ ks, ∃ v, lookupVal sel n = some v) :
    mkAndsLoop ks sel =
      (ks.map (fun n =>
        escape_identifier n ++ (if lookupVal sel n = some Value.VNull then " = NULL " else " = ? ")),
       ks.filterMap (fun n =>
        match lookupVal sel n with
        | some Value.VNull => none
        | some v => some v
        | none => none)) := by
  induction ks with
  | nil => rfl
  | cons n rest ih =>
    obtain ⟨v, hv⟩ := h n (List.mem_cons_self _ _)
    have ih' := ih (fun n' hn' => h n' (List.mem_cons_of_mem _ hn'))
    rcases v with _ | n0 | x | s | b <;> simp [mkAndsLoop, ih', hv]

theorem lookup_perm : ∀ ⦃sel1 sel2 : Record⦄, sel1.Perm sel2 →
    (sel1.map Prod.fst).Nodup → ∀ k, lookupVal sel1 k = lookupVal sel2 k := by
  intro sel1 sel2 hperm
  induction hperm with
  | nil => intro _ _; rfl
  | cons kv t ih =>
    intro hnd k
    have hnd2 := hnd
    rw [List.map_cons] at hnd2
    have hnd' := (List.nodup_cons.mp hnd2).2
    have hrec := ih hnd' k
    unfold lookupVal at hrec ⊢
    rw [List.find?_cons, List.find?_cons]
    by_cases hk : kv.1 = k
    · simp [hk]
    · simp only [decide_eq_false hk]
      exact hrec
  | swap x y l =>
    intro hnd k
    unfold lookupVal
    simp only [List.find?_cons]
    by_cases h1 : y.1 = k <;> by_cases h2 : x.1 = k
    · exfalso
      have hne : y.1 ≠ x.1 := by
        simp only [List.map_cons, List.nodup_cons] at hnd
        intro he
        exact hnd.1 (by rw [he]; exact List.mem_cons_self _ _)
      exact hne (h1.trans h2.symm)
    · simp [h1, h2]
    · simp [h1, h2]
    · simp [h1, h2]
  | trans p1 p2 ih1 ih2 =>
    intro hnd k
    rw [ih1 hnd k, ih2 ((p1.map Prod.fst).nodup_iff.mp hnd) k]

/-- Claim C6: the predicate builder processes fields sorted by name — its
output agrees with the claim-side `mkAndsClaim` and is invariant under
reordering of the mapping — each non-None field emits an escaped `name = ?`
clause and appends its value to the bound list, each None field emits the
unbound literal `name = NULL`, clauses are joined with ` AND `, and the
empty mapping yields an empty clause and no bound values. -/
theorem claim_C6 (sel : Record) (hnd : (sel.map Prod.fst).Nodup) :
    mk_ands sel = mkAndsClaim sel ∧
    (∀ sel2 : Record, sel2.Perm sel → mk_ands sel2 = mk_ands sel) ∧
    mk_ands ([] : Record) = ("", []) := by
  refine ⟨?_, ?_, by decide⟩
  · unfold mk_ands mkAndsClaim
    rw [mkAndsLoop_eq]
    intro n hn
    have hmem : n ∈ sel.map Prod.fst := (List.perm_insertionSort _ _).mem_iff.mp hn
    exact lookupVal_isSome_of_mem_keys sel n hmem
  · intro sel2 hperm
    unfold mk_ands sortStrings
    have hkeys := @List.eq_of_perm_of_sorted String (fun a b => strLe a b = true) _
      (List.insertionSort (fun a b => strLe a b = true) (sel2.map Prod.fst))
      (List.insertionSort (fun a b => strLe a b = true) (sel.map Prod.fst))
      ((List.perm_insertionSort _ _).trans
        ((hperm.map Prod.fst).trans (List.perm_insertionSort _ _).symm))
      (List.sorted_insertionSort _ _) (List.sorted_insertionSort _ _)
    rw [hkeys]
    have hlk := lookup_perm hperm ((hperm.map Prod.fst).nodup_iff.mpr hnd)
    have hloop : ∀ ks, mkAndsLoop ks sel2 = mkAndsLoop ks sel := by
      intro ks
      induction ks with
      | nil => rfl
      | cons n rest ih => simp [mkAndsLoop, ih, hlk n]
    rw [hloop]

theorem claim_C6_witness :
    ((([("b", Value.VInt 2), ("a", Value.VNull)] : Record).map Prod.fst).Nodup) ∧
    mk_ands [("b", Value.VInt 2), ("a", Value.VNull)] =
      mkAndsClaim [("b", Value.VInt 2), ("a", Value.VNull)] :=
  ⟨by decide, (claim_C6 [("b", Value.VInt 2), ("a", Value.VNull)] (by decide)).1⟩

/-! ### Sequences of mutating operations, for schema monotonicity -/

theorem applyOp_ok_facts (st st' : St) (op : DbOp)
    (h : applyOp st op = (st', true)) (hg : SnapGood st) :
    SnapGood st' ∧ (∀ x ∈ st.snapshot, x ∈ st'.snapshot) ∧
      ∀ kv ∈ opRecord op, kv.2 ≠ Value.VNull → pyLower kv.1 ∈ st'.snapshot := by
  cases op with
  | ins r =>
    rw [show applyOp st (DbOp.ins r) = insert st r from rfl, insert_eq_record] at h
    have h' : insert_record st r = (st', true) := by
      rcases hrec : insert_record st r with ⟨s1, b1⟩
      rw [hrec] at h
      exact h
    obtain ⟨stE, hE, hsnapE, hcolsE⟩ := insert_record_parts st st' r h'
    obtain ⟨hgE, hsubE, hcovE⟩ := expandIfNeeded_ok st stE r hE hg
    refine ⟨⟨?_, ?_⟩, ?_, ?_⟩
    · intro x hx; rw [hsnapE] at hx; rw [hcolsE]; exact hgE.1 x hx
    · intro x hx; rw [hsnapE] at hx; exact hgE.2 x hx
    · intro x hx; rw [hsnapE]; exact hsubE x hx
    · intro kv hm hnn; rw [hsnapE]; exact hcovE kv hm hnn
  | upd m r =>
    have h' : update st m r = (st', true) := h
    obtain ⟨stE, hE, hsnapE, hcolsE⟩ := update_parts st st' m r h'
    obtain ⟨hgE, hsubE, hcovE⟩ := expandIfNeeded_ok st stE r hE hg
    refine ⟨⟨?_, ?_⟩, ?_, ?_⟩
    · intro x hx; rw [hsnapE] at hx; rw [hcolsE]; exact hgE.1 x hx
    · intro x hx; rw [hsnapE] at hx; exact hgE.2 x hx
    · intro x hx; rw [hsnapE]; exact hsubE x hx
    · intro kv hm hnn; rw [hsnapE]; exact hcovE kv hm hnn

theorem runOps_facts (ops : List DbOp) : ∀ st : St, SnapGood st →
    (runOps st ops).2 = true →
    SnapGood (runOps st ops).1 ∧ (∀ x ∈ st.snapshot, x ∈ (runOps st ops).1.snapshot) ∧
      ∀ op ∈ ops, ∀ kv ∈ opRecord op, kv.2 ≠ Value.VNull →
        pyLower kv.1 ∈ (runOps st ops).1.snapshot := by
  induction ops with
  | nil =>
    intro st hg _
    exact ⟨hg, fun x hx => hx, by simp⟩
  | cons op rest ih =>
    intro st hg hok
    rcases hap : applyOp st op with ⟨st1, b1⟩
    cases b1
    · simp [runOps, hap] at hok
    · obtain ⟨hg1, hsub1, hcov1⟩ := applyOp_ok_facts st st1 op hap hg
      simp only [runOps, hap] at hok ⊢
      obtain ⟨hgF, hsubF, hcovF⟩ := ih st1 hg1 hok
      refine ⟨hgF, ?_, ?_⟩
      · intro x hx; exact hsubF x (hsub1 x hx)
      · intro op' hop' kv hm hnn
        rcases List.mem_cons.mp hop' with rfl | hm'
        · exact hsubF _ (hcov1 kv hm hnn)
        · exact hcovF op' hm' kv hm hnn

/-- Claim C7: after any sequence of successfully completed inserts and
updates, the snapshot covers every field name ever passed in an inserted
or updated record that had a non-None occurrence — membership in the
snapshot of case-insensitive column names is via the field's lower-casing,
since `get_columns` stores lower-cased names.  Fields whose every
occurrence was None are excluded (a None occurrence creates no column; a
later non-None occurrence of the same name is covered by its own
operation). -/
theorem claim_C7 (st : St) (ops : List DbOp) (hInv : Inv st)
    (hok : (runOps st ops).2 = true) :
    ∀ op ∈ ops, ∀ kv ∈ opRecord op, kv.2 ≠ Value.VNull →
      pyLower kv.1 ∈ (runOps st ops).1.snapshot :=
  (runOps_facts ops st (SnapGood_of_Inv st hInv) hok).2.2

theorem claim_C7_witness :
    Inv newTable ∧
    (runOps newTable [DbOp.ins [("a", Value.VInt 1)],
      DbOp.upd [("a", Value.VInt 1)] [("b", Value.VInt 2)]]).2 = true ∧
    pyLower "b" ∈ (runOps newTable [DbOp.ins [("a", Value.VInt 1)],
      DbOp.upd [("a", Value.VInt 1)] [("b", Value.VInt 2)]]).1.snapshot :=
  ⟨by decide, by decide,
    claim_C7 newTable
      [DbOp.ins [("a", Value.VInt 1)], DbOp.upd [("a", Value.VInt 1)] [("b", Value.VInt 2)]]
      (by decide) (by decide)
      (DbOp.upd [("a", Value.VInt 1)] [("b", Value.VInt 2)]) (by decide)
      ("b", Value.VInt 2) (by decide) (by decide)⟩

/-! ### Commit batching of `insert_list` -/

theorem mem_scheduleFrom (n : Nat) : ∀ i k,
    (k ∈ scheduleFrom i n ↔ k % 500 = 0 ∧ i < k ∧ k ≤ i + n) := by
  induction n with
  | zero =>
    intro i k
    simp only [scheduleFrom, List.not_mem_nil, false_iff]
    omega
  | succ n ih =>
    intro i k
    simp only [scheduleFrom, List.mem_append]
    rw [ih (i + 1) k]
    by_cases h : (i + 1) % 500 = 0
    · rw [if_pos h]
      simp only [List.mem_singleton]
      constructor
      · rintro (rfl | ⟨h1, h2, h3⟩)
        · exact ⟨h, by omega, by omega⟩
        · exact ⟨h1, by omega, by omega⟩
      · rintro ⟨h1, h2, h3⟩
        by_cases he : k = i + 1
        · exact Or.inl he
        · exact Or.inr ⟨h1, by omega, by omega⟩
    · rw [if_neg h]
      simp only [List.not_mem_nil, false_or]
      constructor
      · rintro ⟨h1, h2, h3⟩
        exact ⟨h1, by omega, by omega⟩
      · rintro ⟨h1, h2, h3⟩
        refine ⟨h1, ?_, by omega⟩
        by_cases he : k = i + 1
        · subst he
          exact absurd h1 h
        · omega

theorem insertLoop_valid (rs : List Record) : ∀ (st : St) (i : Nat), Inv st →
    (∀ r ∈ rs, validRec r) →
    (insertLoop st rs i).2.1 = true ∧
    Inv (insertLoop st rs i).1 ∧
    Ext st (insertLoop st rs i).1 ∧
    (insertLoop st rs i).2.2 = scheduleFrom i rs.length ∧
    (insertLoop st rs i).1.rows.length = st.rows.length + rs.length ∧
    ∀ j (hj : j < rs.length),
      Agrees (insertLoop st rs i).1.cols
        ((insertLoop st rs i).1.rows.getD (st.rows.length + j) []) (rs.get ⟨j, hj⟩) := by
  induction rs with
  | nil =>
    intro st i hInv _
    refine ⟨rfl, hInv, Ext_refl st, rfl, by simp [insertLoop], ?_⟩
    intro j hj
    simp at hj
  | cons r rest ih =>
    intro st i hInv hv
    have hval := insert_record_valid st r hInv (hv r (List.mem_cons_self _ _))
    rcases hrec : insert_record st r with ⟨st1, b1⟩
    rw [hrec] at hval
    obtain ⟨hb, hInv1, hext1, hlen1, hag1⟩ := hval
    dsimp only at hb hInv1 hext1 hlen1 hag1
    subst hb
    obtain ⟨okF, hInvF, hextF, hcomF, hlenF, hagF⟩ :=
      ih st1 (i + 1) hInv1 (fun r' h' => hv r' (List.mem_cons_of_mem _ h'))
    simp only [insertLoop, hrec, if_pos]
    refine ⟨okF, hInvF, Ext_trans st st1 _ hext1 hextF, ?_, ?_, ?_⟩
    · rw [hcomF]
      rfl
    · rw [hlenF, hlen1]
      simp only [List.length_cons]
      omega
    · intro j hj
      cases j with
      | zero =>
        have hp : st.rows.length < st1.rows.length := by omega
        have hagrees := Agrees_mono st1 (insertLoop st1 rest (i + 1)).1 r
          st.rows.length hextF hp ?ag
        case ag =>
          have heq : st1.rows.getD st.rows.length [] =
              st1.rows.getD st.rows.length [] := rfl
          exact hag1
        simpa using hagrees
      | succ j' =>
        have hj' : j' < rest.length := by
          simp only [List.length_cons] at hj
          omega
        have hres := hagF j' hj'
        have hidx : st1.rows.length + j' = st.rows.length + (j' + 1) := by omega
        rw [hidx] at hres
        simpa using hres

/-- Claim C8 counterexample: `insert_list` over the single empty record.
The generated INSERT is a syntax error, the exception propagates out of the
loop, and the supposedly unconditional final commit never executes: the
run ends with no commits at all and nothing retrievable, refuting the
claim quantified over every finite sequence of records. -/
theorem claim_C8_cex :
    (insert_list newTable [[]]).ok = false ∧ (insert_list newTable [[]]).commits = [] ∧
    (insert_list newTable [[]]).st.rows = [] := by decide

/-- Claim C8 (amended): provided every record inserts cleanly (distinct
lower-cased field names, at least one non-None field, no field named
rowid), `insert_list` inserts each record in order — record `j` becomes
row `old + j`, carrying its non-None fields — commits exactly after every
500th record (the commit events are the multiples of 500 up to `n`) and
always issues a final commit after the last record, also when `n` is not a
multiple of 500. -/
theorem claim_C8 (st : St) (records : List Record) (hInv : Inv st)
    (hv : ∀ r ∈ records, validRec r) :
    (insert_list st records).ok = true ∧
    (insert_list st records).commits = scheduleFrom 0 records.length ++ [records.length] ∧
    (∀ k, k ∈ scheduleFrom 0 records.length ↔
      k % 500 = 0 ∧ 0 < k ∧ k ≤ records.length) ∧
    (insert_list st records).st.rows.length = st.rows.length + records.length ∧
    ∀ j (hj : j < records.length),
      Agrees (insert_list st records).st.cols
        ((insert_list st records).st.rows.getD (st.rows.length + j) [])
        (records.get ⟨j, hj⟩) := by
  obtain ⟨hok, hInvF, hextF, hcom, hlenF, hagF⟩ := insertLoop_valid records st 0 hInv hv
  unfold insert_list
  rcases hl : insertLoop st records 0 with ⟨stF, bF, coms⟩
  rw [hl] at hok hcom hlenF hagF
  dsimp only at hok hcom hlenF hagF ⊢
  subst hok
  rw [if_pos rfl]
  refine ⟨rfl, by rw [hcom], ?_, hlenF, hagF⟩
  intro k
  simpa using mem_scheduleFrom records.length 0 k

theorem claim_C8_witness :
    Inv newTable ∧ (∀ r ∈ [[("a", Value.VInt 1)]], validRec r) ∧
    (insert_list newTable [[("a", Value.VInt 1)]]).ok = true ∧
    (insert_list newTable [[("a", Value.VInt 1)]]).commits = [1] :=
  ⟨by decide, by decide,
    (claim_C8 newTable [[("a", Value.VInt 1)]] (by decide) (by decide)).1,
    by decide⟩

/-! ### The round trip of claim C1 -/

theorem find?_lower_self (l : Record) (kv : String × Value)
    (hnd : (l.map (fun kv => pyLower kv.1)).Nodup) (hm : kv ∈ l) :
    l.find? (fun kv' => decide (pyLower kv'.1 = pyLower kv.1)) = some kv := by
  rcases hf : l.find? (fun kv' => decide (pyLower kv'.1 = pyLower kv.1)) with _ | kv2
  · rw [List.find?_eq_none] at hf
    exact absurd (by simp : decide (pyLower kv.1 = pyLower kv.1) = true) (hf kv hm)
  · have hp2 : pyLower kv2.1 = pyLower kv.1 := by simpa using List.find?_some hf
    have he := eq_of_mem_lower_nodup l kv kv2 hnd hm (List.mem_of_find?_eq_some hf) hp2
    rw [he] at hf
    exact hf

theorem lookup_map_pair (cols : List Col) (g : Col → Value) (x : String)
    (hnd : (cols.map Prod.fst).Nodup) : ∀ c ∈ cols, c.1 = x →
    lookupVal (cols.map (fun c => (c.1, g c))) x = some (g c) := by
  induction cols with
  | nil => intro c hc; simp at hc
  | cons c0 rest ih =>
    intro c hc he
    simp only [List.map_cons, List.nodup_cons] at hnd
    rcases List.mem_cons.mp hc with rfl | hm
    · simp [lookupVal, List.find?_cons, he]
    · have hne : c0.1 ≠ x := by
        intro heq
        apply hnd.1
        rw [heq, ← he]
        exact List.mem_map_of_mem _ hm
      simp only [List.map_cons]
      unfold lookupVal
      rw [List.find?_cons]
      simp only [decide_eq_false hne]
      exact ih hnd.2 c hm he

/-- Claim C1 counterexample: take the reachable table built by
`insert({'b': 2})` then `delete({})` — its columns are rowid and b, no
rows.  The record `r = {'a': 1}` maps its only field to a non-Null scalar;
after `insert(r)` the new row is the only row the sub-mapping
`m = {'a': 1}` matches, yet `get_one(m)` returns the row dict with the
unrelated column b present as an explicit null, which is not equal (as a
dict) to `r` extended with the engine-assigned rowid. -/
theorem claim_C1_cex :
    (insert (delete (insert newTable [("b", Value.VInt 2)]).1 []).1 [("a", Value.VInt 1)]).2 =
      true ∧
    get_one (insert (delete (insert newTable [("b", Value.VInt 2)]).1 []).1
        [("a", Value.VInt 1)]).1 [("a", Value.VInt 1)] =
      some [("rowid", Value.VInt 1), ("b", Value.VNull), ("a", Value.VInt 1)] ∧
    ¬ DictEq [("rowid", Value.VInt 1), ("b", Value.VNull), ("a", Value.VInt 1)]
      (("rowid", Value.VInt 1) :: [("a", Value.VInt 1)]) := by decide

/-- Claim C1 (amended): the round trip holds once the table is shaped
exactly for the record — something the unrestricted claim wrongly took for
granted.  For a record `r` with non-Null scalar values under distinct
lower-case field names (none of them rowid), a table whose lower-case-named
columns are exactly rowid plus `r`'s fields, and a sub-mapping `m` of `r`
that no existing row matches, `insert(r)` succeeds and `get_one(m)`
returns a record dict-equal to `r` extended with the engine-assigned
rowid; no field is reported as an explicit null. -/
theorem claim_C1 (st : St) (r m : Record) (hInv : Inv st)
    (hlow : ∀ kv ∈ r, pyLower kv.1 = kv.1)
    (hndk : (r.map Prod.fst).Nodup)
    (hnr : ∀ kv ∈ r, kv.1 ≠ "rowid")
    (hnn : ∀ kv ∈ r, kv.2 ≠ Value.VNull)
    (hne : r ≠ [])
    (hcolslow : ∀ c ∈ st.cols, pyLower c.1 = c.1)
    (hcols : ∀ c ∈ st.cols, c.1 = "rowid" ∨ c.1 ∈ r.map Prod.fst)
    (hcovr : ∀ kv ∈ r, kv.1 ∈ st.cols.map Prod.fst)
    (hm : ∀ kv ∈ m, lookupVal r kv.1 = some kv.2)
    (hnomatch : ∀ row ∈ st.rows, rowMatches st.cols row m = false) :
    (insert st r).2 = true ∧
    ∃ rec, get_one (insert st r).1 m = some rec ∧
      DictEq rec (("rowid", Value.VInt (maxRowid st + 1)) :: r) := by
  have hcl : colsLower st.cols = st.cols.map Prod.fst := by
    unfold colsLower
    exact List.map_congr_left (fun c hc => hcolslow c hc)
  have hndlow : (r.map (fun kv => pyLower kv.1)).Nodup := by
    have hsame : r.map (fun kv => pyLower kv.1) = r.map Prod.fst :=
      List.map_congr_left (fun kv hkv => hlow kv hkv)
    rw [hsame]
    exact hndk
  have hndc : (st.cols.map Prod.fst).Nodup := by
    rw [← hcl]
    exact hInv.2.1
  have hkeys : ∀ kv ∈ r, kv.1 ∈ st.snapshot := by
    intro kv hkv
    rw [hInv.1, hcl]
    exact hcovr kv hkv
  have hnorow : ∀ kv ∈ r, pyLower kv.1 ≠ "rowid" := by
    intro kv hkv
    rw [hlow kv hkv]
    exact hnr kv hkv
  have hexist : ∃ kv ∈ r, kv.2 ≠ Value.VNull := by
    rcases r with _ | ⟨kv0, rest⟩
    · exact absurd rfl hne
    · exact ⟨kv0, List.mem_cons_self _ _, hnn kv0 (List.mem_cons_self _ _)⟩
  have hfil : r.filter (fun kv => decide (kv.2 ≠ Value.VNull)) = r :=
    List.filter_eq_self.mpr (fun kv hkv => by simp [hnn kv hkv])
  have hins := insert_record_exact st r hInv hkeys hexist hnorow
  rw [hfil] at hins
  rw [insert_eq_record, hins]
  dsimp only
  refine ⟨rfl, ?_⟩
  have hmr : ∀ kv ∈ m, kv ∈ r := by
    intro kv hkv
    exact lookupVal_eq_some_mem r kv.1 kv.2 (hm kv hkv)
  have hguard : ∀ kv ∈ m, kv.1 ∈ st.snapshot := fun kv hkv => hkeys kv (hmr kv hkv)
  have hmatch : rowMatches st.cols (mkRow st.cols r (maxRowid st + 1)) m = true := by
    unfold rowMatches
    rw [List.all_eq_true]
    intro kv hkv
    have hkvr : kv ∈ r := hmr kv hkv
    have hnnv : kv.2 ≠ Value.VNull := hnn kv hkvr
    unfold fieldMatches
    rw [if_neg hnnv]
    have hrv : rowVal st.cols (mkRow st.cols r (maxRowid st + 1)) kv.1 = kv.2 := by
      apply rowVal_mkRow_field st.cols r _ kv hkvr (hnorow kv hkvr)
      · intro kv' hkv' he
        exact eq_of_mem_lower_nodup r kv kv' hndlow hkvr hkv' he
      · rw [hlow kv hkvr, hcl]
        exact hcovr kv hkvr
    simp [hrv]
  have hfilter :
      (sortRows { st with rows := st.rows ++ [mkRow st.cols r (maxRowid st + 1)] }).filter
        (fun row => rowMatches st.cols row m) = [mkRow st.cols r (maxRowid st + 1)] := by
    apply List.perm_singleton.mp
    have hperm : sortRows { st with rows := st.rows ++ [mkRow st.cols r (maxRowid st + 1)] }
        |>.filter (fun row => rowMatches st.cols row m) |>.Perm
        ((st.rows ++ [mkRow st.cols r (maxRowid st + 1)]).filter
          (fun row => rowMatches st.cols row m)) :=
      List.Perm.filter _ (List.perm_insertionSort _ _)
    have hval : (st.rows ++ [mkRow st.cols r (maxRowid st + 1)]).filter
        (fun row => rowMatches st.cols row m) = [mkRow st.cols r (maxRowid st + 1)] := by
      rw [List.filter_append]
      have hold : st.rows.filter (fun row => rowMatches st.cols row m) = [] := by
        rw [List.filter_eq_nil_iff]
        intro row hrow
        simp [hnomatch row hrow]
      rw [hold]
      simp [hmatch]
    rw [hval] at hperm
    exact hperm
  refine ⟨rowToRecord st.cols (mkRow st.cols r (maxRowid st + 1)), ?_, ?_⟩
  · unfold get_one get
    rw [if_pos hguard]
    dsimp only
    rw [hfilter]
    rfl
  · obtain ⟨g, hg_rowid, hg_field, hmkg⟩ :
        ∃ g : Col → Value,
          (∀ c ∈ st.cols, c.1 = "rowid" → g c = Value.VInt (maxRowid st + 1)) ∧
          (∀ c ∈ st.cols, ∀ kv ∈ r, kv.1 = c.1 → g c = kv.2) ∧
          mkRow st.cols r (maxRowid st + 1) = st.cols.map g := by
      refine ⟨fun c =>
        if pyLower c.1 = "rowid" then Value.VInt (maxRowid st + 1)
        else
          match r.find? (fun kv => decide (pyLower kv.1 = pyLower c.1)) with
          | some kv => kv.2
          | none => Value.VNull, ?_, ?_, rfl⟩
      · intro c hc he
        dsimp only
        rw [if_pos (by rw [hcolslow c hc, he])]
      · intro c hc kv hkv he
        dsimp only
        rw [if_neg (by rw [hcolslow c hc, ← he]; exact hnr kv hkv)]
        have hpc : pyLower c.1 = pyLower kv.1 := by
          rw [hcolslow c hc, ← he, hlow kv hkv]
        simp only [hpc]
        rw [find?_lower_self r kv hndlow hkv]
    have hzip : rowToRecord st.cols (st.cols.map g) =
        st.cols.map (fun c => (c.1, g c)) := by
      unfold rowToRecord
      exact List.zip_map' Prod.fst g st.cols
    rw [hmkg, hzip]
    constructor
    · intro entry hentry
      rcases List.mem_map.mp hentry with ⟨c, hc, he⟩
      rw [← he]
      dsimp only
      rcases hcols c hc with hrowid | hfield
      · rw [hrowid, hg_rowid c hc hrowid]
        simp [lookupVal, List.find?_cons]
      · rcases List.mem_map.mp hfield with ⟨kv, hkv, hkve⟩
        rw [hg_field c hc kv hkv hkve, ← hkve]
        unfold lookupVal
        rw [List.find?_cons]
        have hnotrow : ¬ (("rowid", Value.VInt (maxRowid st + 1)).1 = kv.1) :=
          fun hh => hnr kv hkv hh.symm
        simp only [decide_eq_false hnotrow]
        have hlk := lookupVal_of_mem_nodup r kv hndk hkv
        unfold lookupVal at hlk
        exact hlk
    · intro kv hkv
      rcases List.mem_cons.mp hkv with rfl | hkvr
      · obtain ⟨c, hc, hce⟩ : ∃ c ∈ st.cols, c.1 = "rowid" := by
          have hmemr := hInv.2.2.1
          rw [hcl] at hmemr
          rcases List.mem_map.mp hmemr with ⟨c, hc, he⟩
          exact ⟨c, hc, he⟩
        rw [lookup_map_pair st.cols g "rowid" hndc c hc hce, hg_rowid c hc hce]
      · obtain ⟨c, hc, hce⟩ : ∃ c ∈ st.cols, c.1 = kv.1 := by
          rcases List.mem_map.mp (hcovr kv hkvr) with ⟨c, hc, he⟩
          exact ⟨c, hc, he⟩
        rw [lookup_map_pair st.cols g kv.1 hndc c hc hce,
          hg_field c hc kv hkvr hce.symm]

theorem claim_C1_witness :
    Inv tableA ∧ (insert tableA [("a", Value.VInt 1)]).2 = true := by
  have h := claim_C1 tableA [("a", Value.VInt 1)] [("a", Value.VInt 1)]
    (by decide) (by decide) (by decide) (by decide) (by decide) (by decide)
    (by decide) (by decide) (by decide) (by decide) (by decide)
  exact ⟨by decide, h.1⟩

end LazyTable
